import Mathlib

/-!
Shallow embedding of the mesh normal computation and split-normal (custom
normal) encoding subsystem of source/blender/blenkernel/intern/mesh_normals.cc,
together with theorems settling the frozen claims about it.

Modelling conventions:
* float scalars are modelled as real numbers (exact arithmetic);
* float[3] vectors are modelled by the Vec3 structure below;
* C int indices are modelled by ℕ where they are used as array indices and by
  ℤ where sentinel values (INDEX_UNSET / INDEX_INVALID) flow through them;
* the BLI helper saacosf clamps its argument into [-1, 1] before acosf; the
  Mathlib function Real.arccos performs exactly the same clamping, so saacos
  is defined as Real.arccos;
* fallible iteration (the fan walk, whose termination depends on mesh
  topology) is written with explicit fuel and returns an Option.
-/

noncomputable section

open Real

open scoped Classical

/-- Vector of three real scalars; the shallow model of a C float[3]. -/
@[ext]
structure Vec3 where
  x : ℝ
  y : ℝ
  z : ℝ

namespace Vec3

/-- Componentwise addition (BLI add_v3_v3v3). -/
def add (a b : Vec3) : Vec3 := ⟨a.x + b.x, a.y + b.y, a.z + b.z⟩

/-- Componentwise subtraction (BLI sub_v3_v3v3). -/
def sub (a b : Vec3) : Vec3 := ⟨a.x - b.x, a.y - b.y, a.z - b.z⟩

/-- Componentwise negation (BLI negate_v3). -/
def neg (a : Vec3) : Vec3 := ⟨-a.x, -a.y, -a.z⟩

/-- Scalar multiplication (BLI mul_v3_fl / mul_v3_v3fl). -/
def smul (r : ℝ) (a : Vec3) : Vec3 := ⟨r * a.x, r * a.y, r * a.z⟩

instance instZeroV : Zero Vec3 := ⟨⟨0, 0, 0⟩⟩

instance instAddV : Add Vec3 := ⟨Vec3.add⟩

instance instSubV : Sub Vec3 := ⟨Vec3.sub⟩

instance instNegV : Neg Vec3 := ⟨Vec3.neg⟩

instance instSMulV : SMul ℝ Vec3 := ⟨Vec3.smul⟩

instance : AddCommGroup Vec3 where
  add_assoc a b c :=
    Vec3.ext (add_assoc a.x b.x c.x) (add_assoc a.y b.y c.y) (add_assoc a.z b.z c.z)
  zero_add a := Vec3.ext (zero_add a.x) (zero_add a.y) (zero_add a.z)
  add_zero a := Vec3.ext (add_zero a.x) (add_zero a.y) (add_zero a.z)
  add_comm a b := Vec3.ext (add_comm a.x b.x) (add_comm a.y b.y) (add_comm a.z b.z)
  neg_add_cancel a :=
    Vec3.ext (neg_add_cancel a.x) (neg_add_cancel a.y) (neg_add_cancel a.z)
  sub_eq_add_neg a b :=
    Vec3.ext (sub_eq_add_neg a.x b.x) (sub_eq_add_neg a.y b.y) (sub_eq_add_neg a.z b.z)
  nsmul := nsmulRec
  zsmul := zsmulRec

instance : Module ℝ Vec3 where
  one_smul a := Vec3.ext (one_mul a.x) (one_mul a.y) (one_mul a.z)
  mul_smul r s a := Vec3.ext (mul_assoc r s a.x) (mul_assoc r s a.y) (mul_assoc r s a.z)
  smul_zero r := Vec3.ext (mul_zero r) (mul_zero r) (mul_zero r)
  smul_add r a b := Vec3.ext (mul_add r a.x b.x) (mul_add r a.y b.y) (mul_add r a.z b.z)
  add_smul r s a := Vec3.ext (add_mul r s a.x) (add_mul r s a.y) (add_mul r s a.z)
  zero_smul a := Vec3.ext (zero_mul a.x) (zero_mul a.y) (zero_mul a.z)

/-- Euclidean inner product of two vectors (BLI dot_v3v3). -/
def dot (a b : Vec3) : ℝ := a.x * b.x + a.y * b.y + a.z * b.z

/-- Cross product of two vectors (BLI cross_v3_v3v3). -/
def cross (a b : Vec3) : Vec3 :=
  ⟨a.y * b.z - a.z * b.y, a.z * b.x - a.x * b.z, a.x * b.y - a.y * b.x⟩

/-- Euclidean length of a vector (BLI len_v3). -/
def len (a : Vec3) : ℝ := Real.sqrt (dot a a)

/-- Normalization with zero fallback. Modelled from the spec: the BLI helper
normalize_v3 is not part of src/; the spec (§4.1 normalize_or_fallback)
states that it returns the fallback (the zero vector here, matching the
callers) when the length is numerically zero and the unit vector otherwise. -/
def normalize (a : Vec3) : Vec3 :=
  if dot a a = 0 then 0 else (Real.sqrt (dot a a))⁻¹ • a

end Vec3

/-- Clamped arc cosine. Modelled from the spec: BLI saacosf (not in src/)
clamps its argument into [-1, 1] before taking acosf; Real.arccos performs
exactly this clamping (it returns π at and below -1, and 0 at and above 1). -/
def saacos (x : ℝ) : ℝ := Real.arccos x

/-- Componentwise comparison with tolerance. Modelled from the spec: BLI
compare_v3v3 (not in src/) is the componentwise absolute comparison used by
the encoder guard that the spec describes as the target normal being equal to
the computed lnor; the tolerance 1e-4 is visible at the call site in src/. -/
def compare_v3v3 (a b : Vec3) (limit : ℝ) : Prop :=
  |a.x - b.x| ≤ limit ∧ |a.y - b.y| ≤ limit ∧ |a.z - b.z| ≤ limit

/-- Loop-normal space: orthonormal basis plus the two angular bounds
(MLoopNorSpace of BKE_mesh.h restricted to the fields used by the codec;
the loops list and flags are modelled separately where needed). -/
structure MLoopNorSpace where
  vec_lnor : Vec3
  vec_ref : Vec3
  vec_ortho : Vec3
  ref_alpha : ℝ
  ref_beta : ℝ

/-- Threshold used by BKE_lnor_space_define and the codec
(LNOR_SPACE_TRIGO_THRESHOLD = 1.0f - 1e-4f). -/
def LNOR_SPACE_TRIGO_THRESHOLD : ℝ := 1 - 1 / 10000

/-- Construction of a loop-normal space (BKE_lnor_space_define).
The C function fills a caller-provided struct that was calloc-ed to zero; the
degenerate branch only zeroes ref_alpha and ref_beta, leaving the basis
vectors zero, which the model reproduces by returning the all-zero space.
The edge_vectors stack is modelled as an optional list of edge vectors. -/
def BKE_lnor_space_define (lnor vec_ref vec_other : Vec3)
    (edge_vectors : Option (List Vec3)) : MLoopNorSpace :=
  let pi2 : ℝ := Real.pi * 2
  let dtp_ref := Vec3.dot vec_ref lnor
  let dtp_other := Vec3.dot vec_other lnor
  if LNOR_SPACE_TRIGO_THRESHOLD ≤ |dtp_ref| ∨ LNOR_SPACE_TRIGO_THRESHOLD ≤ |dtp_other| then
    { vec_lnor := 0, vec_ref := 0, vec_ortho := 0, ref_alpha := 0, ref_beta := 0 }
  else
    let ref_alpha :=
      match edge_vectors with
      | some vecs => (vecs.foldl (fun a vec => a + saacos (Vec3.dot vec lnor)) 0) /
          (vecs.length : ℝ)
      | none => (saacos (Vec3.dot vec_ref lnor) + saacos (Vec3.dot vec_other lnor)) / 2
    let vec_ref1 := vec_ref - dtp_ref • lnor
    let vec_refN := Vec3.normalize vec_ref1
    let vec_orthoN := Vec3.normalize (Vec3.cross lnor vec_refN)
    let vec_other1 := Vec3.normalize (vec_other - dtp_other • lnor)
    let dtp := Vec3.dot vec_refN vec_other1
    let ref_beta :=
      if dtp < LNOR_SPACE_TRIGO_THRESHOLD then
        let beta := saacos dtp
        if Vec3.dot vec_orthoN vec_other1 < 0 then pi2 - beta else beta
      else pi2
    { vec_lnor := lnor, vec_ref := vec_refN, vec_ortho := vec_orthoN,
      ref_alpha := ref_alpha, ref_beta := ref_beta }

/-- Fixed-point short to unit float (unit_short_to_float); SHRT_MAX = 32767. -/
def unit_short_to_float (v : ℤ) : ℝ := (v : ℝ) / 32767

/-- Unit float to fixed-point short with round-to-nearest
(unit_float_to_short: floorf(val * SHRT_MAX + 0.5f)). The result is kept in ℤ;
the claims under study never leave the representable range. -/
def unit_float_to_short (v : ℝ) : ℤ := ⌊v * 32767 + 1 / 2⌋

/-- Decoder (BKE_lnor_space_custom_data_to_normal): turn a two-component
fixed-point code into a normal expressed in the given loop-normal space. -/
def BKE_lnor_space_custom_data_to_normal (s : MLoopNorSpace) (clnor_data : ℤ × ℤ) : Vec3 :=
  if clnor_data.1 = 0 ∨ s.ref_alpha = 0 ∨ s.ref_beta = 0 then s.vec_lnor
  else
    let pi2 : ℝ := Real.pi * 2
    let alphafac := unit_short_to_float clnor_data.1
    let alpha := (if 0 < alphafac then s.ref_alpha else pi2 - s.ref_alpha) * alphafac
    let betafac := unit_short_to_float clnor_data.2
    let base := Real.cos alpha • s.vec_lnor
    if betafac = 0 then base + Real.sin alpha • s.vec_ref
    else
      let sinalpha := Real.sin alpha
      let beta := (if 0 < betafac then s.ref_beta else pi2 - s.ref_beta) * betafac
      base + (sinalpha * Real.cos beta) • s.vec_ref +
        (sinalpha * Real.sin beta) • s.vec_ortho

/-- Encoder (BKE_lnor_space_custom_normal_to_data): turn a custom normal into
its two-component fixed-point code relative to the given loop-normal space. -/
def BKE_lnor_space_custom_normal_to_data (s : MLoopNorSpace) (custom_lnor : Vec3) : ℤ × ℤ :=
  if custom_lnor = 0 ∨ compare_v3v3 s.vec_lnor custom_lnor (1 / 10000) then (0, 0)
  else
    let pi2 : ℝ := Real.pi * 2
    let cos_alpha := Vec3.dot s.vec_lnor custom_lnor
    let alpha := saacos cos_alpha
    let c0 :=
      if s.ref_alpha < alpha then unit_float_to_short (-(pi2 - alpha) / (pi2 - s.ref_alpha))
      else unit_float_to_short (alpha / s.ref_alpha)
    let vec := Vec3.normalize (custom_lnor + (-cos_alpha) • s.vec_lnor)
    let cos_beta := Vec3.dot s.vec_ref vec
    let c1 :=
      if cos_beta < LNOR_SPACE_TRIGO_THRESHOLD then
        let beta0 := saacos cos_beta
        let beta := if Vec3.dot s.vec_ortho vec < 0 then pi2 - beta0 else beta0
        if s.ref_beta < beta then unit_float_to_short (-(pi2 - beta) / (pi2 - s.ref_beta))
        else unit_float_to_short (beta / s.ref_beta)
      else 0
    (c0, c1)

/-- Specification helper: the polar angle that the decoder reconstructs from
the first code component (the alpha computed inside
BKE_lnor_space_custom_data_to_normal, or 0 when the decoder takes its
shortcut branch and returns vec_lnor, which equals the spherical form with a
zero polar angle). -/
def decodedAlpha (s : MLoopNorSpace) (clnor_data : ℤ × ℤ) : ℝ :=
  if clnor_data.1 = 0 ∨ s.ref_alpha = 0 ∨ s.ref_beta = 0 then 0
  else
    let alphafac := unit_short_to_float clnor_data.1
    (if 0 < alphafac then s.ref_alpha else Real.pi * 2 - s.ref_alpha) * alphafac

/-- Specification helper: the azimuthal angle that the decoder reconstructs
from the second code component. -/
def decodedBeta (s : MLoopNorSpace) (clnor_data : ℤ × ℤ) : ℝ :=
  if clnor_data.1 = 0 ∨ s.ref_alpha = 0 ∨ s.ref_beta = 0 then 0
  else
    let betafac := unit_short_to_float clnor_data.2
    if betafac = 0 then 0
    else (if 0 < betafac then s.ref_beta else Real.pi * 2 - s.ref_beta) * betafac

/-! Mesh topology data model (read-only input arrays of the subsystem). -/

/-- Polygon descriptor (MPoly restricted to the fields the subsystem reads:
loopstart, totloop and the ME_SMOOTH bit of flag). -/
structure MPolyS where
  loopstart : ℕ
  totloop : ℕ
  smooth : Bool

/-- Edge descriptor (MEdge restricted to v1, v2 and the ME_SHARP bit). -/
structure MEdgeS where
  v1 : ℕ
  v2 : ℕ
  sharp : Bool

/-- Mesh topology arrays, modelled as total functions plus explicit sizes. -/
structure MeshTopo where
  positions : ℕ → Vec3
  numVerts : ℕ
  edges : ℕ → MEdgeS
  numEdges : ℕ
  corner_verts : ℕ → ℕ
  corner_edges : ℕ → ℕ
  numLoops : ℕ
  polys : ℕ → MPolyS
  numPolys : ℕ

/-- Sentinel INDEX_UNSET (INT_MIN in the source). -/
def INDEX_UNSET : ℤ := -2147483648

/-- Sentinel INDEX_INVALID. -/
def INDEX_INVALID : ℤ := -1

/-- Sharpness test on an edge-to-loops entry (IS_EDGE_SHARP macro): the
second slot holds one of the two negative sentinels. -/
def IS_EDGE_SHARP (e2l : ℤ × ℤ) : Prop := e2l.2 = INDEX_UNSET ∨ e2l.2 = INDEX_INVALID

instance (e2l : ℤ × ℤ) : Decidable (IS_EDGE_SHARP e2l) := by
  unfold IS_EDGE_SHARP; infer_instance

/-- Loop-to-polygon map. Modelled from the spec (§4.2): the helper
blender::bke::mesh_topology::build_loop_to_poly_map is not part of src/; the
spec defines it as the pure map sending each corner to the index of the
polygon whose corner range contains it. -/
def build_loop_to_poly_map (m : MeshTopo) : ℕ → ℕ :=
  (List.range m.numPolys).foldl
    (fun acc p => fun l =>
      if (m.polys p).loopstart ≤ l ∧ l < (m.polys p).loopstart + (m.polys p).totloop then p
      else acc l)
    (fun _ => 0)

/-- Scan order of mesh_edges_sharp_tag: all (polygon, corner) pairs, polygons
in index order, each polygon's corners in increasing corner order. -/
def scanPairs (m : MeshTopo) : List (ℕ × ℕ) :=
  (List.range m.numPolys).flatMap
    (fun p => (List.range (m.polys p).totloop).map (fun k => (p, (m.polys p).loopstart + k)))

/-- Mutable state threaded through the mesh_edges_sharp_tag scan: the
edge-to-loops adjacency array, the optional sharp-tag bit vector, and the
pre-populated loop normals. -/
structure SharpTagState where
  e2l : ℕ → ℤ × ℤ
  sharp_bits : ℕ → Bool
  loopnors : ℕ → Vec3

/-- Body of the mesh_edges_sharp_tag scan for one (polygon, corner) pair
(the inner loop of the source function, lines 818-873). -/
def mesh_edges_sharp_tag_step (m : MeshTopo) (vert_normals polynors : ℕ → Vec3)
    (loop_to_poly : ℕ → ℕ) (check_angle : Bool) (split_angle_cos : ℝ)
    (do_sharp_edges_tag : Bool) (has_loopnors : Bool)
    (st : SharpTagState) (pc : ℕ × ℕ) : SharpTagState :=
  let mp_index := pc.1
  let ml_curr_index := pc.2
  let poly := m.polys mp_index
  let vert_i := m.corner_verts ml_curr_index
  let edge_i := m.corner_edges ml_curr_index
  let e2l_e := st.e2l edge_i
  let loopnors1 :=
    if has_loopnors then Function.update st.loopnors ml_curr_index (vert_normals vert_i)
    else st.loopnors
  if e2l_e = (0, 0) then
    { e2l := Function.update st.e2l edge_i
        ((ml_curr_index : ℤ), if poly.smooth then INDEX_UNSET else INDEX_INVALID),
      sharp_bits := st.sharp_bits, loopnors := loopnors1 }
  else if e2l_e.2 = INDEX_UNSET then
    let is_angle_sharp := check_angle = true ∧
      Vec3.dot (polynors (loop_to_poly e2l_e.1.toNat)) (polynors mp_index) < split_angle_cos
    if poly.smooth = false ∨ (m.edges edge_i).sharp = true ∨
        vert_i = m.corner_verts e2l_e.1.toNat ∨ is_angle_sharp then
      { e2l := Function.update st.e2l edge_i (e2l_e.1, INDEX_INVALID),
        sharp_bits :=
          if do_sharp_edges_tag = true ∧ is_angle_sharp then
            Function.update st.sharp_bits edge_i true
          else st.sharp_bits,
        loopnors := loopnors1 }
    else
      { e2l := Function.update st.e2l edge_i (e2l_e.1, (ml_curr_index : ℤ)),
        sharp_bits := st.sharp_bits, loopnors := loopnors1 }
  else if ¬ IS_EDGE_SHARP e2l_e then
    { e2l := Function.update st.e2l edge_i (e2l_e.1, INDEX_INVALID),
      sharp_bits :=
        if do_sharp_edges_tag then Function.update st.sharp_bits edge_i false
        else st.sharp_bits,
      loopnors := loopnors1 }
  else
    { e2l := st.e2l, sharp_bits := st.sharp_bits, loopnors := loopnors1 }

/-- Full mesh_edges_sharp_tag scan: fold of the per-corner step over the scan
order, starting from the calloc-ed adjacency array, a cleared bit vector, and
the given initial loop-normal array. -/
def mesh_edges_sharp_tag (m : MeshTopo) (vert_normals polynors : ℕ → Vec3)
    (loop_to_poly : ℕ → ℕ) (check_angle : Bool) (split_angle : ℝ)
    (do_sharp_edges_tag : Bool) (has_loopnors : Bool) (loopnors0 : ℕ → Vec3) : SharpTagState :=
  let split_angle_cos := if check_angle then Real.cos split_angle else -1
  (scanPairs m).foldl
    (mesh_edges_sharp_tag_step m vert_normals polynors loop_to_poly check_angle split_angle_cos
      do_sharp_edges_tag has_loopnors)
    { e2l := fun _ => (0, 0), sharp_bits := fun _ => false, loopnors := loopnors0 }

/-- Edge tagging driver (BKE_edges_sharp_from_angle_set): early-out when
split_angle is at or above π, otherwise run the scan with angle checking and
sharp-edge tagging enabled and OR the resulting bits into the edge flags. -/
def BKE_edges_sharp_from_angle_set (m : MeshTopo) (polynors : ℕ → Vec3)
    (split_angle : ℝ) : ℕ → MEdgeS :=
  if Real.pi ≤ split_angle then m.edges
  else
    let loop_to_poly := build_loop_to_poly_map m
    let st := mesh_edges_sharp_tag m (fun _ => 0) polynors loop_to_poly true split_angle true
      false (fun _ => 0)
    fun e =>
      if e < m.numEdges ∧ st.sharp_bits e = true then
        { v1 := (m.edges e).v1, v2 := (m.edges e).v2, sharp := true }
      else m.edges e

/-! Fan walk (split_loop_nor_fan_do and loop_manifold_fan_around_vert_next). -/

/-- Position of the endpoint of edge e opposite to the pivot vertex. -/
def edgeOtherVertPos (m : MeshTopo) (pivot e : ℕ) : Vec3 :=
  if (m.edges e).v1 = pivot then m.positions (m.edges e).v2 else m.positions (m.edges e).v1

/-- Step to the next corner of a smooth fan
(loop_manifold_fan_around_vert_next). Returns the new
(mlfan_curr_index, mlfan_vert_index, mpfan_curr_index) triple. -/
def loop_manifold_fan_around_vert_next (m : MeshTopo) (loop_to_poly : ℕ → ℕ)
    (e2lfan_curr : ℤ × ℤ) (mv_pivot_index mlfan_curr_index : ℕ) : ℕ × ℕ × ℕ :=
  let fan_vert_curr := m.corner_verts mlfan_curr_index
  let mlfan1 := (if e2lfan_curr.1 = (mlfan_curr_index : ℤ) then e2lfan_curr.2
    else e2lfan_curr.1).toNat
  let mpfan1 := loop_to_poly mlfan1
  let fan_vert_next := m.corner_verts mlfan1
  let poly := m.polys mpfan1
  if (fan_vert_curr = fan_vert_next ∧ fan_vert_curr = mv_pivot_index) ∨
      (fan_vert_curr ≠ fan_vert_next ∧ fan_vert_curr ≠ mv_pivot_index) then
    let dec : ℤ := (mlfan1 : ℤ) - 1
    let curr := if dec < (poly.loopstart : ℤ) then poly.loopstart + poly.totloop - 1
      else dec.toNat
    (curr, mlfan1, mpfan1)
  else
    let inc := mlfan1 + 1
    let curr := if poly.loopstart + poly.totloop ≤ inc then poly.loopstart else inc
    (curr, curr, mpfan1)

/-- Result of the fan-walk loop of split_loop_nor_fan_do, carrying both the
data the source keeps (accumulated normal, stacks, final edge vector) and the
walk-order list of processed corners, exposed so that properties of the fan
can be stated. -/
structure FanResult where
  lnorAcc : Vec3
  visited : List ℕ
  edgeVectors : List Vec3
  vecCurr : Vec3
  lastVert : ℕ
  clnorsInvalid : Bool
  clnorsSum : ℤ × ℤ
  clnorsCount : ℕ

/-- Fan-walk loop of split_loop_nor_fan_do (the while(true) loop), written
with explicit fuel: each iteration accumulates the angle-weighted face normal
of the current corner, records the corner, and either stops (sharp edge
reached or full cyclic turn) or steps to the next corner of the fan. -/
def fanLoop (m : MeshTopo) (loop_to_poly : ℕ → ℕ) (edge_to_loops : ℕ → ℤ × ℤ)
    (polynors : ℕ → Vec3) (useSpace useClnors : Bool) (clnors : ℕ → ℤ × ℤ)
    (clnorRef : ℤ × ℤ) (mv_pivot_index me_org : ℕ) :
    ℕ → ℕ → ℕ → ℕ → ℤ × ℤ → Vec3 → Vec3 → List ℕ → List Vec3 → Bool → ℤ × ℤ → ℕ →
    Option FanResult
  | 0, _, _, _, _, _, _, _, _, _, _, _ => none
  | fuel + 1, mlfan_curr, mlfan_vert, mpfan, e2lfan, vec_prev, lnor, visited, evs, cinv, csum,
      ccount =>
    let me_curr := m.corner_edges mlfan_curr
    let vec_curr := Vec3.normalize (edgeOtherVertPos m mv_pivot_index me_curr -
      m.positions mv_pivot_index)
    let fac := saacos (Vec3.dot vec_curr vec_prev)
    let lnor1 := lnor + fac • polynors mpfan
    let c := clnors mlfan_vert
    let cinv1 := if useClnors then (cinv || decide (ccount ≠ 0 ∧ c ≠ clnorRef)) else cinv
    let csum1 := if useClnors then (csum.1 + c.1, csum.2 + c.2) else csum
    let ccount1 := if useClnors then ccount + 1 else ccount
    let visited1 := mlfan_vert :: visited
    let evs1 := if useSpace = true ∧ me_curr ≠ me_org then vec_curr :: evs else evs
    if IS_EDGE_SHARP e2lfan ∨ me_curr = me_org then
      some ⟨lnor1, visited1, evs1, vec_curr, mlfan_vert, cinv1, csum1, ccount1⟩
    else
      let nxt := loop_manifold_fan_around_vert_next m loop_to_poly e2lfan mv_pivot_index
        mlfan_curr
      fanLoop m loop_to_poly edge_to_loops polynors useSpace useClnors clnors clnorRef
        mv_pivot_index me_org fuel nxt.1 nxt.2.1 nxt.2.2
        (edge_to_loops (m.corner_edges nxt.1)) vec_curr lnor1 visited1 evs1 cinv1 csum1 ccount1

/-- Result of one fan task (split_loop_nor_fan_do): the updated loop-normal
array, the constructed loop-normal space if requested, the possibly fixed
custom-normal codes, and the internal walk data. -/
structure FanDoResult where
  loopnors : ℕ → Vec3
  space : Option MLoopNorSpace
  clnors : ℕ → ℤ × ℤ
  walk : FanResult

/-- Post-processing of one fan task (the code of split_loop_nor_fan_do after
the walk loop): normalize the accumulated normal (with vertex-normal fallback
when a space array is requested), optionally define the fan's loop-normal
space and re-average invalid custom-normal codes, and copy the one final
normal back into every corner of the fan. -/
def split_loop_nor_fan_post (loopnors0 : ℕ → Vec3) (clnors0 : ℕ → ℤ × ℤ)
    (useSpace useClnors : Bool) (ml_curr_index : ℕ) (vec_org : Vec3)
    (res : FanResult) : FanDoResult :=
  let lnor_len0 := Vec3.len res.lnorAcc
  let lnorN := Vec3.normalize res.lnorAcc
  if useSpace then
    let lnor1 := if lnor_len0 = 0 then loopnors0 res.lastVert else lnorN
    let space := BKE_lnor_space_define lnor1 vec_org res.vecCurr (some res.edgeVectors)
    let avg : ℤ × ℤ :=
      (Int.tdiv res.clnorsSum.1 (res.clnorsCount : ℤ),
       Int.tdiv res.clnorsSum.2 (res.clnorsCount : ℤ))
    let clnors1 :=
      if useClnors = true ∧ res.clnorsInvalid = true then
        res.visited.foldl (fun f l => Function.update f l avg) clnors0
      else clnors0
    let refv := if res.clnorsInvalid then avg else clnors0 ml_curr_index
    let lnor2 := if useClnors then BKE_lnor_space_custom_data_to_normal space refv else lnor1
    ⟨res.visited.foldl (fun f l => Function.update f l lnor2) loopnors0,
      some space, clnors1, res⟩
  else
    if lnor_len0 = 0 then
      ⟨loopnors0, none, clnors0, res⟩
    else
      ⟨res.visited.foldl (fun f l => Function.update f l lnorN) loopnors0,
        none, clnors0, res⟩

/-- Fan task of the loop-split computation (split_loop_nor_fan_do): walk the
smooth fan accumulating the angle-weighted face normals, then run the
post-processing above on the walk's result. -/
def split_loop_nor_fan_do (m : MeshTopo) (loop_to_poly : ℕ → ℕ)
    (edge_to_loops : ℕ → ℤ × ℤ) (polynors : ℕ → Vec3) (useSpace useClnors : Bool)
    (clnors0 : ℕ → ℤ × ℤ) (loopnors0 : ℕ → Vec3)
    (ml_curr_index ml_prev_index mp_index : ℕ) (fuel : ℕ) : Option FanDoResult :=
  let mv_pivot := m.corner_verts ml_curr_index
  let me_org := m.corner_edges ml_curr_index
  let vec_org := Vec3.normalize (edgeOtherVertPos m mv_pivot me_org - m.positions mv_pivot)
  let evs0 : List Vec3 := if useSpace then [vec_org] else []
  Option.map (split_loop_nor_fan_post loopnors0 clnors0 useSpace useClnors ml_curr_index
      vec_org)
    (fanLoop m loop_to_poly edge_to_loops polynors useSpace useClnors clnors0
      (clnors0 ml_curr_index) mv_pivot me_org fuel ml_prev_index ml_curr_index mp_index
      (edge_to_loops (m.corner_edges ml_prev_index)) vec_org 0 [] evs0 false (0, 0) 0)

/-! Task-buffer mechanics of the pooled path of loop_split_generator. -/

/-- Task block size (LOOP_SPLIT_TASK_BLOCK_SIZE). -/
def LOOP_SPLIT_TASK_BLOCK_SIZE : ℕ := 1024

/-- Per-task data of the generator, restricted to the index fields relevant
to the buffer mechanics (LoopSplitTaskData). -/
structure LoopSplitTaskD where
  ml_curr_index : ℤ
  ml_prev_index : ℤ
  mp_index : ℤ

/-- Buffer fill step of the pooled path of loop_split_generator (source
lines 1433-1447): on EVERY accepted corner the generator re-tags every entry
of the current block with ml_curr_index = -1 ("used to tag the end of the
buffer") and then stores the new task at position data_idx. -/
def loop_split_generator_buffer_step (st : (ℕ → LoopSplitTaskD) × ℕ)
    (t : LoopSplitTaskD) : (ℕ → LoopSplitTaskD) × ℕ :=
  let buf1 := fun i =>
    if i < LOOP_SPLIT_TASK_BLOCK_SIZE then
      { ml_curr_index := -1, ml_prev_index := (st.1 i).ml_prev_index,
        mp_index := (st.1 i).mp_index }
    else st.1 i
  (Function.update buf1 st.2 t, st.2 + 1)

/-- Number of tasks of a block that loop_split_worker actually executes: the
worker walks the block in order and stops at the first entry whose
ml_curr_index is -1. -/
def loop_split_worker_processed (buf : ℕ → LoopSplitTaskD) : ℕ :=
  ((List.range LOOP_SPLIT_TASK_BLOCK_SIZE).takeWhile
    (fun i => decide ((buf i).ml_curr_index ≠ -1))).length

/-! Polygon and vertex normals (BKE_mesh_calc_poly_normal and
calculate_normals_poly_and_vert). -/

/-- Newell cross-term accumulation. Modelled from the spec: BLI
add_newell_cross_v3_v3v3 (not in src/) adds the standard Newell method term
of the edge (v_prev, v_curr); the spec (§4.1) prescribes Newell's method for
N-gons. -/
def newell_cross (v_prev v_curr : Vec3) : Vec3 :=
  ⟨(v_prev.y - v_curr.y) * (v_prev.z + v_curr.z),
   (v_prev.z - v_curr.z) * (v_prev.x + v_curr.x),
   (v_prev.x - v_curr.x) * (v_prev.y + v_curr.y)⟩

/-- Vertex indices of polygon p, by local corner index. -/
def poly_verts_fn (m : MeshTopo) (p : ℕ) : ℕ → ℕ :=
  fun k => m.corner_verts ((m.polys p).loopstart + k)

/-- Newell sum of a polygon: the accumulation loop shared verbatim by
mesh_calc_ngon_normal and the inline polygon-normal block of
calculate_normals_poly_and_vert. -/
def polyNewellSum (m : MeshTopo) (p : ℕ) : Vec3 :=
  let n := (m.polys p).totloop
  let pv := poly_verts_fn m p
  ((List.range n).foldl
    (fun st i_next =>
      (st.1 + newell_cross st.2 (m.positions (pv i_next)), m.positions (pv i_next)))
    ((0 : Vec3), m.positions (pv (n - 1)))).1

/-- Normalized Newell polygon normal with the degenerate fallback (0,0,1)
(mesh_calc_ngon_normal, and the inline version in
calculate_normals_poly_and_vert lines 278-290). -/
def newellPolyNormal (m : MeshTopo) (p : ℕ) : Vec3 :=
  let s := polyNewellSum m p
  if Vec3.dot s s = 0 then ⟨0, 0, 1⟩ else Vec3.normalize s

/-- Triangle normal. Modelled from the spec: BLI normal_tri_v3 is not part of
src/; the spec (§4.1) states that the triangle normal is the normalized cross
product of two edges and that degenerate (zero-area) faces fall back to
(0,0,1). -/
def normal_tri_v3 (v1 v2 v3 : Vec3) : Vec3 :=
  let n := Vec3.cross (v1 - v2) (v2 - v3)
  if Vec3.dot n n = 0 then ⟨0, 0, 1⟩ else Vec3.normalize n

/-- Quad normal. Modelled from the spec: BLI normal_quad_v3 is not part of
src/; the spec (§4.1) states that the quad normal uses the symmetric 4-point
formula (cross product of the two diagonals) with the same degenerate
fallback. -/
def normal_quad_v3 (v1 v2 v3 v4 : Vec3) : Vec3 :=
  let n := Vec3.cross (v1 - v3) (v2 - v4)
  if Vec3.dot n n = 0 then ⟨0, 0, 1⟩ else Vec3.normalize n

/-- Polygon normal dispatch (BKE_mesh_calc_poly_normal): Newell for N-gons
with more than 4 corners, the triangle and quad formulas below that, and the
two-sided-face fallback (0,0,1). -/
def BKE_mesh_calc_poly_normal (m : MeshTopo) (p : ℕ) : Vec3 :=
  let pv := poly_verts_fn m p
  let n := (m.polys p).totloop
  if 4 < n then newellPolyNormal m p
  else if n = 3 then
    normal_tri_v3 (m.positions (pv 0)) (m.positions (pv 1)) (m.positions (pv 2))
  else if n = 4 then
    normal_quad_v3 (m.positions (pv 0)) (m.positions (pv 1)) (m.positions (pv 2))
      (m.positions (pv 3))
  else ⟨0, 0, 1⟩

/-- Angle-weighted accumulation of one polygon's face normal into the shared
per-vertex array (the accumulation block of calculate_normals_poly_and_vert,
lines 292-322), parameterized by the function mapping the loop-local counter
i_curr to the index of the output slot that receives the contribution. The
source passes the global corner_verts array for that function (reading it at
the loop-local index i_curr); the specification-side instantiation passes
the polygon's own vertex list instead. -/
def accumulateVertexNormalsPoly (m : MeshTopo) (p : ℕ) (pnor : Vec3) (target : ℕ → ℕ)
    (acc0 : ℕ → Vec3) : ℕ → Vec3 :=
  let n := (m.polys p).totloop
  let i_end := n - 1
  let pv := poly_verts_fn m p
  let edvec_end := Vec3.normalize (m.positions (pv (i_end - 1)) - m.positions (pv i_end))
  (((List.range n).foldl
    (fun st i_next =>
      let acc := st.1
      let i_curr := st.2.1
      let v_curr := st.2.2.1
      let edvec_prev := st.2.2.2
      let v_next := m.positions (pv i_next)
      let edvec_next := if i_next ≠ i_end then Vec3.normalize (v_curr - v_next) else edvec_end
      let fac := saacos (-(Vec3.dot edvec_prev edvec_next))
      let acc1 := Function.update acc (target i_curr) (acc (target i_curr) + fac • pnor)
      (acc1, i_next, v_next, edvec_next))
    (acc0, i_end, m.positions (pv i_end), edvec_end))).1

/-- Per-vertex accumulation phase of calculate_normals_poly_and_vert exactly
as written in the source: the contribution of loop-local corner i_curr of
every polygon is added at index corner_verts[i_curr], i.e. the global
corner-vertex array read at the loop-local counter. -/
def calculate_normals_poly_and_vert_accum (m : MeshTopo) : ℕ → Vec3 :=
  (List.range m.numPolys).foldl
    (fun acc p => accumulateVertexNormalsPoly m p (newellPolyNormal m p) m.corner_verts acc)
    (fun _ => 0)

/-- Specification-side accumulation, following the spec's words (§4.5 and
§5): each polygon corner's angle-weighted face-normal contribution is
accumulated into the vertex that this corner references (the polygon's own
vertex at that corner). -/
def specVertexAccum (m : MeshTopo) : ℕ → Vec3 :=
  (List.range m.numPolys).foldl
    (fun acc p => accumulateVertexNormalsPoly m p (newellPolyNormal m p) (poly_verts_fn m p) acc)
    (fun _ => 0)

/-- Normalize-and-validate pass of calculate_normals_poly_and_vert (lines
327-339): normalize each accumulated vertex normal; when the accumulated
vector has zero length, use the normalized vertex position instead. -/
def calculate_normals_poly_and_vert_finalize (m : MeshTopo) (acc : ℕ → Vec3) : ℕ → Vec3 :=
  fun vert_i =>
    if Vec3.len (acc vert_i) = 0 then Vec3.normalize (m.positions vert_i)
    else Vec3.normalize (acc vert_i)

/-- Vertex normals computed by BKE_mesh_calc_normals_poly_and_vertex: the
accumulation phase followed by the normalize-and-validate pass. -/
def BKE_mesh_calc_normals_poly_and_vertex_vnors (m : MeshTopo) : ℕ → Vec3 :=
  calculate_normals_poly_and_vert_finalize m (calculate_normals_poly_and_vert_accum m)

/-! Final encoding pass of mesh_normals_loop_custom_set (step 4 of the
custom-normal reconciliation, source lines 1844-1895). -/

/-- Loop-normal space together with the bookkeeping attached to it by the
space array: the MLNOR_SPACE_IS_SINGLE flag and the list of member corners. -/
structure LnorSpaceFull where
  space : MLoopNorSpace
  isSingle : Bool
  loops : List ℕ

/-- Body of the final encoding pass for one corner index i: skip corners
whose space is missing (resetting their done bit), encode the single-member
spaces directly, and for multi-member spaces average the members' target
normals, encode the average once, and write the resulting code back to every
member corner (resetting all their done bits). -/
def custom_set_encode_step (spaces : ℕ → LnorSpaceFull) (lspacearr : ℕ → Option ℕ)
    (use_vertices : Bool) (corner_verts : ℕ → ℕ) (customs : ℕ → Vec3)
    (st : (ℕ → ℤ × ℤ) × (ℕ → Bool)) (i : ℕ) : (ℕ → ℤ × ℤ) × (ℕ → Bool) :=
  match lspacearr i with
  | none => (st.1, Function.update st.2 i false)
  | some sid =>
    if st.2 i = true then
      let sp := spaces sid
      if sp.isSingle = true then
        let nidx := if use_vertices then corner_verts i else i
        (Function.update st.1 i (BKE_lnor_space_custom_normal_to_data sp.space (customs nidx)),
         Function.update st.2 i false)
      else
        let avg := ((sp.loops.length : ℝ))⁻¹ •
          (sp.loops.foldl
            (fun a l => a + customs (if use_vertices then corner_verts l else l)) (0 : Vec3))
        let code := BKE_lnor_space_custom_normal_to_data sp.space avg
        (sp.loops.foldl (fun f l => Function.update f l code) st.1,
         sp.loops.foldl (fun f l => Function.update f l false) st.2)
    else st

/-- Final encoding pass of mesh_normals_loop_custom_set: fold of the
per-corner body over all corner indices in order. -/
def custom_set_encode_pass (numLoops : ℕ) (spaces : ℕ → LnorSpaceFull)
    (lspacearr : ℕ → Option ℕ) (use_vertices : Bool) (corner_verts : ℕ → ℕ)
    (customs : ℕ → Vec3) (clnors0 : ℕ → ℤ × ℤ) (done0 : ℕ → Bool) :
    (ℕ → ℤ × ℤ) × (ℕ → Bool) :=
  (List.range numLoops).foldl
    (custom_set_encode_step spaces lspacearr use_vertices corner_verts customs)
    (clnors0, done0)

/-! Concrete instances used to instantiate the conditional theorems below. -/

/-- Empty mesh (no vertices, edges, polygons or corners). -/
def emptyMesh : MeshTopo :=
  { positions := fun _ => 0, numVerts := 0, edges := fun _ => ⟨0, 0, false⟩, numEdges := 0,
    corner_verts := fun _ => 0, corner_edges := fun _ => 0, numLoops := 0,
    polys := fun _ => ⟨0, 0, false⟩, numPolys := 0 }

/-- Concrete non-degenerate loop-normal space (unit z axis, x reference,
y orthogonal, quarter-circle alpha range, half-circle beta range). -/
def spaceC2 : MLoopNorSpace := ⟨⟨0, 0, 1⟩, ⟨1, 0, 0⟩, ⟨0, 1, 0⟩, Real.pi / 2, Real.pi⟩

/-- Space array with one two-member space (members 0 and 1). -/
def spacesC8 : ℕ → LnorSpaceFull := fun _ => ⟨spaceC2, false, [0, 1]⟩

/-- Corner-to-space map sending corners 0 and 1 to space 0. -/
def lspacearrC8 : ℕ → Option ℕ := fun i => if i < 2 then some 0 else none

/-- Mesh with a single degenerate triangle: all three vertices coincide at
the origin. -/
def meshC6 : MeshTopo :=
  { positions := fun _ => 0, numVerts := 3, edges := fun _ => ⟨0, 0, false⟩, numEdges := 0,
    corner_verts := fun l => l, corner_edges := fun _ => 0, numLoops := 3,
    polys := fun _ => ⟨0, 3, true⟩, numPolys := 1 }

/-- Mesh with two disjoint right triangles: triangle 0 on vertices 0,1,2 in
the z = 5 plane and triangle 1 on vertices 3,4,5 in the z = 0 plane; corner l
references vertex l, so the second polygon's corners live at indices 3..5. -/
def meshC9 : MeshTopo :=
  { positions := fun v =>
      if v = 0 then ⟨0, 0, 5⟩ else if v = 1 then ⟨1, 0, 5⟩ else if v = 2 then ⟨0, 1, 5⟩
      else if v = 3 then ⟨0, 0, 0⟩ else if v = 4 then ⟨1, 0, 0⟩ else if v = 5 then ⟨0, 1, 0⟩
      else 0,
    numVerts := 6, edges := fun _ => ⟨0, 0, false⟩, numEdges := 0,
    corner_verts := fun l => l, corner_edges := fun _ => 0, numLoops := 6,
    polys := fun p => if p = 0 then ⟨0, 3, true⟩ else ⟨3, 3, true⟩, numPolys := 2 }

end

/-! Theorems. First a layer of small facts about the vector model, then the
theorems settling the claims. -/

section

open Real

open scoped Classical

@[simp]
theorem Vec3.zero_x : (0 : Vec3).x = 0 := rfl

@[simp]
theorem Vec3.zero_y : (0 : Vec3).y = 0 := rfl

@[simp]
theorem Vec3.zero_z : (0 : Vec3).z = 0 := rfl

@[simp]
theorem Vec3.add_x (a b : Vec3) : (a + b).x = a.x + b.x := rfl

@[simp]
theorem Vec3.add_y (a b : Vec3) : (a + b).y = a.y + b.y := rfl

@[simp]
theorem Vec3.add_z (a b : Vec3) : (a + b).z = a.z + b.z := rfl

@[simp]
theorem Vec3.sub_x (a b : Vec3) : (a - b).x = a.x - b.x := rfl

@[simp]
theorem Vec3.sub_y (a b : Vec3) : (a - b).y = a.y - b.y := rfl

@[simp]
theorem Vec3.sub_z (a b : Vec3) : (a - b).z = a.z - b.z := rfl

@[simp]
theorem Vec3.neg_x (a : Vec3) : (-a).x = -a.x := rfl

@[simp]
theorem Vec3.neg_y (a : Vec3) : (-a).y = -a.y := rfl

@[simp]
theorem Vec3.neg_z (a : Vec3) : (-a).z = -a.z := rfl

@[simp]
theorem Vec3.smul_x (r : ℝ) (a : Vec3) : (r • a).x = r * a.x := rfl

@[simp]
theorem Vec3.smul_y (r : ℝ) (a : Vec3) : (r • a).y = r * a.y := rfl

@[simp]
theorem Vec3.smul_z (r : ℝ) (a : Vec3) : (r • a).z = r * a.z := rfl

@[simp]
theorem Vec3.mk_zero : (Vec3.mk 0 0 0) = (0 : Vec3) := rfl

@[simp]
theorem Vec3.mk_x (a b c : ℝ) : (Vec3.mk a b c).x = a := rfl

@[simp]
theorem Vec3.mk_y (a b c : ℝ) : (Vec3.mk a b c).y = b := rfl

@[simp]
theorem Vec3.mk_z (a b c : ℝ) : (Vec3.mk a b c).z = c := rfl

theorem Vec3.dot_self_nonneg (v : Vec3) : 0 ≤ Vec3.dot v v := by
  unfold Vec3.dot
  nlinarith [mul_self_nonneg v.x, mul_self_nonneg v.y, mul_self_nonneg v.z]

theorem Vec3.dot_self_eq_zero_iff (v : Vec3) : Vec3.dot v v = 0 ↔ v = 0 := by
  constructor
  · intro h
    unfold Vec3.dot at h
    have hx : v.x * v.x = 0 := by
      have h1 := mul_self_nonneg v.x
      have h2 := mul_self_nonneg v.y
      have h3 := mul_self_nonneg v.z
      linarith
    have hy : v.y * v.y = 0 := by
      have h1 := mul_self_nonneg v.x
      have h2 := mul_self_nonneg v.y
      have h3 := mul_self_nonneg v.z
      linarith
    have hz : v.z * v.z = 0 := by
      have h1 := mul_self_nonneg v.x
      have h2 := mul_self_nonneg v.y
      have h3 := mul_self_nonneg v.z
      linarith
    exact Vec3.ext (mul_self_eq_zero.mp hx) (mul_self_eq_zero.mp hy) (mul_self_eq_zero.mp hz)
  · intro h
    subst h
    simp [Vec3.dot]

theorem Vec3.len_eq_zero_iff (v : Vec3) : Vec3.len v = 0 ↔ Vec3.dot v v = 0 := by
  unfold Vec3.len
  rw [Real.sqrt_eq_zero (Vec3.dot_self_nonneg v)]

theorem Vec3.normalize_zero : Vec3.normalize (0 : Vec3) = 0 := by
  unfold Vec3.normalize
  rw [if_pos]
  simp [Vec3.dot]

theorem Vec3.normalize_unit (v : Vec3) (h : Vec3.dot v v = 1) : Vec3.normalize v = v := by
  unfold Vec3.normalize
  rw [if_neg (by rw [h]; norm_num), h, Real.sqrt_one, inv_one, one_smul]

/-- C10: in BKE_mesh_calc_normals_poly_and_vertex, a vertex whose accumulated
angle-weighted normal sum normalizes to zero length receives the
normalization of its own position vector as its output normal. -/
theorem claim_C10_vertex_normal_fallback (m : MeshTopo) (vert_i : ℕ)
    (h : Vec3.len (calculate_normals_poly_and_vert_accum m vert_i) = 0) :
    BKE_mesh_calc_normals_poly_and_vertex_vnors m vert_i =
      Vec3.normalize (m.positions vert_i) := by
  unfold BKE_mesh_calc_normals_poly_and_vertex_vnors calculate_normals_poly_and_vert_finalize
  rw [if_pos h]

/-- Witness for C10 at the empty mesh, whose accumulated array is zero
everywhere. -/
theorem claim_C10_witness :
    Vec3.len (calculate_normals_poly_and_vert_accum emptyMesh 0) = 0 ∧
    BKE_mesh_calc_normals_poly_and_vertex_vnors emptyMesh 0 =
      Vec3.normalize (emptyMesh.positions 0) := by
  have h : Vec3.len (calculate_normals_poly_and_vert_accum emptyMesh 0) = 0 := by
    have : calculate_normals_poly_and_vert_accum emptyMesh 0 = 0 := by
      unfold calculate_normals_poly_and_vert_accum emptyMesh
      simp
    rw [this, Vec3.len_eq_zero_iff]
    simp [Vec3.dot]
  exact ⟨h, claim_C10_vertex_normal_fallback emptyMesh 0 h⟩

/-- C2 counterexample: the encoder returns (0,0) for the zero input normal
even though that input differs from the space's lnor axis and the space is
not degenerate, so the claimed equivalence (code (0,0) iff the input equals
lnor or the space is degenerate) fails in its only-if direction. -/
theorem claim_C2_counterexample :
    BKE_lnor_space_custom_normal_to_data spaceC2 0 = (0, 0) ∧
    (0 : Vec3) ≠ spaceC2.vec_lnor ∧ spaceC2.ref_alpha ≠ 0 ∧ spaceC2.ref_beta ≠ 0 := by
  refine ⟨?_, ?_, ?_, ?_⟩
  · unfold BKE_lnor_space_custom_normal_to_data
    rw [if_pos (Or.inl rfl)]
  · intro h
    have hz := congrArg Vec3.z h
    simp [spaceC2] at hz
  · show Real.pi / 2 ≠ 0
    positivity
  · show Real.pi ≠ 0
    exact Real.pi_ne_zero

/-- C2 amended: the encoder returns (0,0) whenever the input normal equals
the space's lnor axis, and also for the zero input normal (the NOP marker);
the decoder applied to any code whose first component is 0 (in particular to
(0,0)) always returns the lnor axis. -/
theorem claim_C2_amended (s : MLoopNorSpace) (c : ℤ) :
    BKE_lnor_space_custom_normal_to_data s s.vec_lnor = (0, 0) ∧
    BKE_lnor_space_custom_normal_to_data s 0 = (0, 0) ∧
    BKE_lnor_space_custom_data_to_normal s (0, c) = s.vec_lnor := by
  refine ⟨?_, ?_, ?_⟩
  · unfold BKE_lnor_space_custom_normal_to_data
    rw [if_pos (Or.inr ⟨by simp, by simp, by simp⟩)]
  · unfold BKE_lnor_space_custom_normal_to_data
    rw [if_pos (Or.inl rfl)]
  · unfold BKE_lnor_space_custom_data_to_normal
    rw [if_pos (Or.inl rfl)]

set_option maxRecDepth 20000

/-- C5 code-bug evidence: in the pooled path of loop_split_generator, queuing
a second task into a block re-tags the whole block (including the already
queued first task) with ml_curr_index = -1, so the worker, which stops at the
first -1 entry, executes none of the two queued fan tasks: fans handed to the
task pool are processed zero times, not exactly once. -/
theorem claim_C5_codebug_buffer_reset :
    (loop_split_generator_buffer_step
        (loop_split_generator_buffer_step (fun _ => ⟨0, 0, 0⟩, 0) ⟨5, 4, 0⟩) ⟨7, 6, 1⟩).2 = 2 ∧
    ((loop_split_generator_buffer_step
        (loop_split_generator_buffer_step (fun _ => ⟨0, 0, 0⟩, 0) ⟨5, 4, 0⟩) ⟨7, 6, 1⟩).1 1
      ).ml_curr_index = 7 ∧
    ((loop_split_generator_buffer_step
        (loop_split_generator_buffer_step (fun _ => ⟨0, 0, 0⟩, 0) ⟨5, 4, 0⟩) ⟨7, 6, 1⟩).1 0
      ).ml_curr_index = -1 ∧
    loop_split_worker_processed
      (loop_split_generator_buffer_step
        (loop_split_generator_buffer_step (fun _ => ⟨0, 0, 0⟩, 0) ⟨5, 4, 0⟩) ⟨7, 6, 1⟩).1 = 0 := by
  refine ⟨rfl, by decide, by decide, by decide⟩

/-- C6: a triangle whose three vertices are collinear (zero area) receives
the exact fallback normal (0,0,1), both from BKE_mesh_calc_poly_normal (whose
triangle branch is the modelled normal_tri_v3) and from the inline Newell
computation used by calculate_normals_poly_and_vert. -/
theorem claim_C6_degenerate_face_fallback (m : MeshTopo) (p : ℕ) (t : ℝ)
    (h3 : (m.polys p).totloop = 3)
    (hcol : m.positions (poly_verts_fn m p 1) - m.positions (poly_verts_fn m p 0) =
      t • (m.positions (poly_verts_fn m p 2) - m.positions (poly_verts_fn m p 0))) :
    BKE_mesh_calc_poly_normal m p = ⟨0, 0, 1⟩ ∧ newellPolyNormal m p = ⟨0, 0, 1⟩ := by
  set a := m.positions (poly_verts_fn m p 0) with ha
  set b := m.positions (poly_verts_fn m p 1) with hb
  set c := m.positions (poly_verts_fn m p 2) with hc
  have ex : b.x = a.x + t * (c.x - a.x) := by
    have h := congrArg Vec3.x hcol
    simp only [Vec3.sub_x, Vec3.smul_x] at h
    linarith
  have ey : b.y = a.y + t * (c.y - a.y) := by
    have h := congrArg Vec3.y hcol
    simp only [Vec3.sub_y, Vec3.smul_y] at h
    linarith
  have ez : b.z = a.z + t * (c.z - a.z) := by
    have h := congrArg Vec3.z hcol
    simp only [Vec3.sub_z, Vec3.smul_z] at h
    linarith
  have hcross : Vec3.cross (a - b) (b - c) = 0 := by
    apply Vec3.ext <;>
      simp only [Vec3.cross, Vec3.mk_x, Vec3.mk_y, Vec3.mk_z, Vec3.sub_x, Vec3.sub_y,
        Vec3.sub_z, Vec3.zero_x, Vec3.zero_y, Vec3.zero_z, ex, ey, ez] <;>
      ring
  have hnewell : polyNewellSum m p = 0 := by
    have hr : List.range 3 = [0, 1, 2] := rfl
    simp only [polyNewellSum, h3]
    rw [hr]
    simp only [List.foldl_cons, List.foldl_nil]
    norm_num
    apply Vec3.ext <;>
      simp only [newell_cross, Vec3.mk_x, Vec3.mk_y, Vec3.mk_z, Vec3.add_x, Vec3.add_y,
        Vec3.add_z, Vec3.zero_x, Vec3.zero_y, Vec3.zero_z, ← ha, ← hb, ← hc, ex, ey, ez] <;>
      ring
  constructor
  · unfold BKE_mesh_calc_poly_normal
    rw [h3]
    rw [if_neg (by norm_num), if_pos rfl]
    unfold normal_tri_v3
    rw [← ha, ← hb, ← hc, hcross]
    rw [if_pos (by simp [Vec3.dot])]
  · unfold newellPolyNormal
    rw [hnewell]
    rw [if_pos (by simp [Vec3.dot])]

/-- Witness for C6 at a triangle whose three vertices coincide. -/
theorem claim_C6_witness :
    (meshC6.polys 0).totloop = 3 ∧
    (meshC6.positions (poly_verts_fn meshC6 0 1) - meshC6.positions (poly_verts_fn meshC6 0 0) =
      (0 : ℝ) • (meshC6.positions (poly_verts_fn meshC6 0 2) -
        meshC6.positions (poly_verts_fn meshC6 0 0))) ∧
    BKE_mesh_calc_poly_normal meshC6 0 = ⟨0, 0, 1⟩ ∧ newellPolyNormal meshC6 0 = ⟨0, 0, 1⟩ := by
  have h3 : (meshC6.polys 0).totloop = 3 := rfl
  have hcol : meshC6.positions (poly_verts_fn meshC6 0 1) -
      meshC6.positions (poly_verts_fn meshC6 0 0) =
      (0 : ℝ) • (meshC6.positions (poly_verts_fn meshC6 0 2) -
        meshC6.positions (poly_verts_fn meshC6 0 0)) := by
    show (0 : Vec3) - 0 = (0 : ℝ) • ((0 : Vec3) - 0)
    simp
  exact ⟨h3, hcol, claim_C6_degenerate_face_fallback meshC6 0 0 h3 hcol⟩

/-- C9 code-bug evidence: on the two-triangle mesh meshC9 the source
accumulation (which indexes the global corner_verts array with the polygon
LOCAL corner counter i_curr) delivers no contribution at all to vertex 3,
although corner 3 of polygon 1 references vertex 3 with angle weight pi/2 and
face normal (0,0,1): the specified per-vertex sum at vertex 3 is
(pi/2)(0,0,1), not 0, already in the sequential execution. -/
theorem claim_C9_codebug_accumulation :
    calculate_normals_poly_and_vert_accum meshC9 3 = 0 ∧
    specVertexAccum meshC9 3 = (Real.pi / 2) • (⟨0, 0, 1⟩ : Vec3) ∧
    (Real.pi / 2) • (⟨0, 0, 1⟩ : Vec3) ≠ (0 : Vec3) := by
  refine ⟨?_, ?_, ?_⟩
  · unfold calculate_normals_poly_and_vert_accum accumulateVertexNormalsPoly
    simp [meshC9, Function.update_apply, List.range_succ]
  · unfold specVertexAccum accumulateVertexNormalsPoly
    simp [meshC9, Function.update_apply, List.range_succ, poly_verts_fn, newellPolyNormal,
      polyNewellSum, newell_cross, Vec3.normalize, Vec3.dot, saacos, Real.arccos_zero]
  · intro h
    have hz := congrArg Vec3.z h
    simp at hz
    exact Real.pi_ne_zero (by linarith)

/-- C3: characterization of the per-corner transitions of the
mesh_edges_sharp_tag scan (with the split-angle cosine precomputed exactly as
the wrapper does). At a smooth-pending entry (second corner touching the
edge) the entry resolves sharp exactly when the owning polygon is flat, or
the edge carries the persistent sharp flag, or both corners on the edge
reference the same vertex, or angle checking is enabled and the dot product
of the two faces' normals is below cos(split_angle); otherwise the second
corner index is stored. A resolved-smooth entry (third or later corner)
always resolves sharp, and a resolved-sharp entry stays unchanged. -/
theorem claim_C3_sharp_edge_classification (m : MeshTopo) (vert_normals polynors : ℕ → Vec3)
    (loop_to_poly : ℕ → ℕ) (check_angle do_sharp has_loopnors : Bool) (split_angle : ℝ)
    (st : SharpTagState) (mp ml : ℕ) :
    let step := mesh_edges_sharp_tag_step m vert_normals polynors loop_to_poly check_angle
      (if check_angle then Real.cos split_angle else -1) do_sharp has_loopnors st (mp, ml)
    let e := m.corner_edges ml
    let cur := st.e2l e
    let sharpCond := (m.polys mp).smooth = false ∨ (m.edges e).sharp = true ∨
      m.corner_verts ml = m.corner_verts cur.1.toNat ∨
      (check_angle = true ∧
        Vec3.dot (polynors (loop_to_poly cur.1.toNat)) (polynors mp) < Real.cos split_angle)
    (cur.2 = INDEX_UNSET →
      ((step.e2l e = (cur.1, INDEX_INVALID) ↔ sharpCond) ∧
       (¬ sharpCond → step.e2l e = (cur.1, (ml : ℤ))))) ∧
    (cur ≠ (0, 0) → cur.2 ≠ INDEX_UNSET → ¬ IS_EDGE_SHARP cur →
      step.e2l e = (cur.1, INDEX_INVALID)) ∧
    (cur.2 = INDEX_INVALID → step.e2l e = cur) := by
  intro step e cur sharpCond
  have hcond : (check_angle = true ∧
      Vec3.dot (polynors (loop_to_poly cur.1.toNat)) (polynors mp) <
        (if check_angle then Real.cos split_angle else -1)) ↔
      (check_angle = true ∧
        Vec3.dot (polynors (loop_to_poly cur.1.toNat)) (polynors mp) < Real.cos split_angle) := by
    cases check_angle <;> simp
  refine ⟨?_, ?_, ?_⟩
  · intro h2
    have h00 : ¬ (cur = (0, 0)) := by
      intro hq
      rw [hq] at h2
      norm_num [INDEX_UNSET] at h2
    by_cases hc : (m.polys mp).smooth = false ∨ (m.edges e).sharp = true ∨
        m.corner_verts ml = m.corner_verts cur.1.toNat ∨
        (check_angle = true ∧
          Vec3.dot (polynors (loop_to_poly cur.1.toNat)) (polynors mp) <
            (if check_angle then Real.cos split_angle else -1))
    · have hstep : step.e2l e = (cur.1, INDEX_INVALID) := by
        show (mesh_edges_sharp_tag_step m vert_normals polynors loop_to_poly check_angle
          (if check_angle then Real.cos split_angle else -1) do_sharp has_loopnors st
          (mp, ml)).e2l e = (cur.1, INDEX_INVALID)
        simp only [mesh_edges_sharp_tag_step]
        rw [if_neg h00, if_pos h2, if_pos hc]
        simp [Function.update_same]
      constructor
      · constructor
        · intro _
          rcases hc with h | h | h | h
          · exact Or.inl h
          · exact Or.inr (Or.inl h)
          · exact Or.inr (Or.inr (Or.inl h))
          · exact Or.inr (Or.inr (Or.inr (hcond.mp h)))
        · intro _
          exact hstep
      · intro hns
        exact absurd (by
          rcases hc with h | h | h | h
          · exact Or.inl h
          · exact Or.inr (Or.inl h)
          · exact Or.inr (Or.inr (Or.inl h))
          · exact Or.inr (Or.inr (Or.inr (hcond.mp h)))) hns
    · have hstep : step.e2l e = (cur.1, (ml : ℤ)) := by
        show (mesh_edges_sharp_tag_step m vert_normals polynors loop_to_poly check_angle
          (if check_angle then Real.cos split_angle else -1) do_sharp has_loopnors st
          (mp, ml)).e2l e = (cur.1, (ml : ℤ))
        simp only [mesh_edges_sharp_tag_step]
        rw [if_neg h00, if_pos h2, if_neg hc]
        simp [Function.update_same]
      have hnsc : ¬ sharpCond := by
        intro hs
        apply hc
        rcases hs with h | h | h | h
        · exact Or.inl h
        · exact Or.inr (Or.inl h)
        · exact Or.inr (Or.inr (Or.inl h))
        · exact Or.inr (Or.inr (Or.inr (hcond.mpr h)))
      constructor
      · constructor
        · intro heq
          rw [hstep] at heq
          have := congrArg Prod.snd heq
          simp only at this
          exfalso
          have hml : (0 : ℤ) ≤ (ml : ℤ) := Int.natCast_nonneg ml
          rw [this] at hml
          norm_num [INDEX_INVALID] at hml
        · intro hs
          exact absurd hs hnsc
      · intro _
        exact hstep
  · intro h00 h2 hsh
    show (mesh_edges_sharp_tag_step m vert_normals polynors loop_to_poly check_angle
      (if check_angle then Real.cos split_angle else -1) do_sharp has_loopnors st
      (mp, ml)).e2l e = (cur.1, INDEX_INVALID)
    simp only [mesh_edges_sharp_tag_step]
    rw [if_neg h00, if_neg h2, if_pos hsh]
    simp [Function.update_same]
  · intro h2
    have h00 : ¬ (cur = (0, 0)) := by
      intro hq
      rw [hq] at h2
      norm_num [INDEX_INVALID] at h2
    have hu : ¬ (cur.2 = INDEX_UNSET) := by
      rw [h2]
      norm_num [INDEX_INVALID, INDEX_UNSET]
    have hsh : IS_EDGE_SHARP cur := Or.inr h2
    show (mesh_edges_sharp_tag_step m vert_normals polynors loop_to_poly check_angle
      (if check_angle then Real.cos split_angle else -1) do_sharp has_loopnors st
      (mp, ml)).e2l e = cur
    simp only [mesh_edges_sharp_tag_step]
    rw [if_neg h00, if_neg hu, if_neg (not_not_intro hsh)]

/-- Witness for C3: the three transition shapes exercised at concrete states
(smooth-pending entry resolving sharp because the polygon is flat,
resolved-smooth entry forced sharp by a third corner, and resolved-sharp
entry left unchanged). -/
theorem claim_C3_witness :
    (mesh_edges_sharp_tag_step emptyMesh (fun _ => 0) (fun _ => 0) (fun _ => 0) false
        (if false = true then Real.cos 0 else -1) false false
        ⟨fun _ => ((5 : ℤ), INDEX_UNSET), fun _ => false, fun _ => 0⟩ (0, 0)).e2l
      (emptyMesh.corner_edges 0) = ((5 : ℤ), INDEX_INVALID) ∧
    (mesh_edges_sharp_tag_step emptyMesh (fun _ => 0) (fun _ => 0) (fun _ => 0) false
        (if false = true then Real.cos 0 else -1) false false
        ⟨fun _ => ((5 : ℤ), (7 : ℤ)), fun _ => false, fun _ => 0⟩ (0, 0)).e2l
      (emptyMesh.corner_edges 0) = ((5 : ℤ), INDEX_INVALID) ∧
    (mesh_edges_sharp_tag_step emptyMesh (fun _ => 0) (fun _ => 0) (fun _ => 0) false
        (if false = true then Real.cos 0 else -1) false false
        ⟨fun _ => ((5 : ℤ), INDEX_INVALID), fun _ => false, fun _ => 0⟩ (0, 0)).e2l
      (emptyMesh.corner_edges 0) = ((5 : ℤ), INDEX_INVALID) := by
  refine ⟨?_, ?_, ?_⟩
  · exact ((claim_C3_sharp_edge_classification emptyMesh (fun _ => 0) (fun _ => 0) (fun _ => 0)
      false false false 0 ⟨fun _ => ((5 : ℤ), INDEX_UNSET), fun _ => false, fun _ => 0⟩ 0 0).1
      rfl).1.mpr (Or.inl rfl)
  · exact (claim_C3_sharp_edge_classification emptyMesh (fun _ => 0) (fun _ => 0) (fun _ => 0)
      false false false 0 ⟨fun _ => ((5 : ℤ), (7 : ℤ)), fun _ => false, fun _ => 0⟩ 0 0).2.1
      (by decide) (by decide) (by decide)
  · exact (claim_C3_sharp_edge_classification emptyMesh (fun _ => 0) (fun _ => 0) (fun _ => 0)
      false false false 0 ⟨fun _ => ((5 : ℤ), INDEX_INVALID), fun _ => false, fun _ => 0⟩ 0
      0).2.2 rfl

theorem foldl_update_not_mem {β : Type} (v : β) :
    ∀ (l : List ℕ) (f : ℕ → β) (x : ℕ), x ∉ l →
      (l.foldl (fun g y => Function.update g y v) f) x = f x := by
  intro l
  induction l with
  | nil => intro f x _; rfl
  | cons a t ih =>
    intro f x hx
    simp only [List.foldl_cons]
    have hxa : x ≠ a := fun h => hx (h ▸ List.mem_cons_self a t)
    have hxt : x ∉ t := fun h => hx (List.mem_cons_of_mem a h)
    rw [ih _ x hxt, Function.update_noteq hxa]

theorem foldl_update_of_mem {β : Type} (v : β) :
    ∀ (l : List ℕ) (f : ℕ → β) (x : ℕ), x ∈ l →
      (l.foldl (fun g y => Function.update g y v) f) x = v := by
  intro l
  induction l with
  | nil => intro f x hx; simp at hx
  | cons a t ih =>
    intro f x hx
    simp only [List.foldl_cons]
    by_cases hxt : x ∈ t
    · exact ih _ x hxt
    · have hxa : x = a := by
        rcases List.mem_cons.mp hx with h | h
        · exact h
        · exact absurd h hxt
      subst hxa
      rw [foldl_update_not_mem v t _ x hxt, Function.update_same]

/-- C8: in the final encoding pass of mesh_normals_loop_custom_set, every
corner of a multi-member loop-normal space receives one identical code,
namely the encoding of the average of the members' target custom normals,
provided the space array is consistent (members point back to their space)
and all members start with their done bit set. -/
theorem claim_C8_average_broadcast (numLoops : ℕ) (spaces : ℕ → LnorSpaceFull)
    (lspacearr : ℕ → Option ℕ) (use_vertices : Bool) (corner_verts : ℕ → ℕ)
    (customs : ℕ → Vec3) (clnors0 : ℕ → ℤ × ℤ) (done0 : ℕ → Bool) (sid : ℕ)
    (Hmem : ∀ l ∈ (spaces sid).loops, lspacearr l = some sid ∧ l < numLoops ∧ done0 l = true)
    (Hcons : ∀ j sid2, lspacearr j = some sid2 →
      ∀ l ∈ (spaces sid2).loops, lspacearr l = some sid2)
    (Hsingle : (spaces sid).isSingle = false)
    (Hne : (spaces sid).loops ≠ []) :
    ∀ l ∈ (spaces sid).loops,
      (custom_set_encode_pass numLoops spaces lspacearr use_vertices corner_verts customs
        clnors0 done0).1 l =
      BKE_lnor_space_custom_normal_to_data (spaces sid).space
        (((spaces sid).loops.length : ℝ)⁻¹ •
          ((spaces sid).loops.foldl
            (fun a l2 => a + customs (if use_vertices then corner_verts l2 else l2))
            (0 : Vec3))) := by
  set L := (spaces sid).loops with hL
  set code := BKE_lnor_space_custom_normal_to_data (spaces sid).space
    ((L.length : ℝ)⁻¹ •
      (L.foldl (fun a l2 => a + customs (if use_vertices then corner_verts l2 else l2))
        (0 : Vec3))) with hcode
  set step := custom_set_encode_step spaces lspacearr use_vertices corner_verts customs
    with hstep
  -- the two reachable shapes of the state, restricted to the members of sid
  set A := fun (st : (ℕ → ℤ × ℤ) × (ℕ → Bool)) =>
    ∀ l ∈ L, st.2 l = true ∧ st.1 l = clnors0 l with hA
  set B := fun (st : (ℕ → ℤ × ℤ) × (ℕ → Bool)) =>
    ∀ l ∈ L, st.2 l = false ∧ st.1 l = code with hB
  -- processing any corner mapped to our space while the state is in shape A
  -- rewrites all members to the broadcast code; all other steps leave the
  -- members untouched
  have hprocess : ∀ (st : (ℕ → ℤ × ℤ) × (ℕ → Bool)) (j : ℕ),
      lspacearr j = some sid → st.2 j = true → B (step st j) := by
    intro st j hj hd
    intro l hl
    rw [hstep]
    simp only [custom_set_encode_step, hj, hd, if_pos, Hsingle]
    simp only [Bool.false_eq_true, if_false, if_true]
    constructor
    · exact foldl_update_of_mem false L _ l hl
    · exact foldl_update_of_mem code L _ l hl
  have hskip : ∀ (st : (ℕ → ℤ × ℤ) × (ℕ → Bool)) (j : ℕ),
      (lspacearr j = some sid → st.2 j = true → False) →
      (∀ l ∈ L, (step st j).2 l = st.2 l ∧ (step st j).1 l = st.1 l) := by
    intro st j hnot l hl
    have hlL := Hmem l hl
    rw [hstep]
    cases hj : lspacearr j with
    | none =>
      simp only [custom_set_encode_step, hj]
      have hlj : l ≠ j := by
        intro h
        rw [h] at hlL
        rw [hlL.1] at hj
        exact Option.noConfusion hj
      exact ⟨Function.update_noteq hlj _ _, by trivial⟩
    | some sid2 =>
      simp only [custom_set_encode_step, hj]
      by_cases hd : st.2 j = true
      · simp only [hd, if_true]
        by_cases hsing : (spaces sid2).isSingle = true
        · simp only [hsing, if_true]
          have hlj : l ≠ j := by
            intro h
            subst h
            rw [hlL.1] at hj
            have hss : sid = sid2 := Option.some.inj hj
            rw [← hss] at hsing
            rw [Hsingle] at hsing
            exact Bool.noConfusion hsing
          exact ⟨Function.update_noteq hlj _ _, Function.update_noteq hlj _ _⟩
        · simp only [hsing, if_false]
          have hsid2 : sid2 ≠ sid := by
            intro h
            subst h
            exact hnot hj hd
          have hlnot : l ∉ (spaces sid2).loops := by
            intro hmem2
            have := Hcons j sid2 hj l hmem2
            rw [hlL.1] at this
            exact hsid2 (Option.some.inj this).symm
          exact ⟨foldl_update_not_mem false _ _ l hlnot,
            foldl_update_not_mem _ _ _ l hlnot⟩
      · simp only [hd]
        simp
  -- fold preservation of shape B
  have hpresB : ∀ (l : List ℕ) (st : (ℕ → ℤ × ℤ) × (ℕ → Bool)),
      B st → B (l.foldl step st) := by
    intro l
    induction l with
    | nil => intro st h; exact h
    | cons a t ih =>
      intro st h
      simp only [List.foldl_cons]
      apply ih
      by_cases ha : lspacearr a = some sid ∧ st.2 a = true
      · exact hprocess st a ha.1 ha.2
      · intro l2 hl2
        have := hskip st a (fun h1 h2 => ha ⟨h1, h2⟩) l2 hl2
        rw [this.1, this.2]
        exact h l2 hl2
  -- fold preservation of the disjunction A-or-B
  have hpresAB : ∀ (l : List ℕ) (st : (ℕ → ℤ × ℤ) × (ℕ → Bool)),
      (A st ∨ B st) → (A (l.foldl step st) ∨ B (l.foldl step st)) := by
    intro l
    induction l with
    | nil => intro st h; exact h
    | cons a t ih =>
      intro st h
      simp only [List.foldl_cons]
      apply ih
      by_cases ha : lspacearr a = some sid ∧ st.2 a = true
      · exact Or.inr (hprocess st a ha.1 ha.2)
      · rcases h with h | h
        · refine Or.inl ?_
          intro l2 hl2
          have := hskip st a (fun h1 h2 => ha ⟨h1, h2⟩) l2 hl2
          rw [this.1, this.2]
          exact h l2 hl2
        · refine Or.inr ?_
          intro l2 hl2
          have := hskip st a (fun h1 h2 => ha ⟨h1, h2⟩) l2 hl2
          rw [this.1, this.2]
          exact h l2 hl2
  -- pick a member; it is scanned, and scanning it forces shape B
  obtain ⟨l0, hl0⟩ : ∃ l0, l0 ∈ L := by
    cases hLc : L with
    | nil => exact absurd (hL ▸ hLc) (by rw [← hL]; exact fun h => Hne (hL ▸ h))
    | cons a t => exact ⟨a, hLc ▸ List.mem_cons_self a t⟩
  obtain ⟨s1, s2, hsplit⟩ := List.append_of_mem
    (List.mem_range.mpr (Hmem l0 hl0).2.1)
  have hfinal : B ((List.range numLoops).foldl step (clnors0, done0)) := by
    rw [hsplit, List.foldl_append, List.foldl_cons]
    apply hpresB
    have h1 : A (clnors0, done0) ∨ B (clnors0, done0) := by
      refine Or.inl ?_
      intro l hl
      exact ⟨(Hmem l hl).2.2, rfl⟩
    have h2 := hpresAB s1 (clnors0, done0) h1
    rcases h2 with h2 | h2
    · exact hprocess _ l0 (Hmem l0 hl0).1 (h2 l0 hl0).1
    · by_cases ha : lspacearr l0 = some sid ∧ (s1.foldl step (clnors0, done0)).2 l0 = true
      · exact hprocess _ l0 ha.1 ha.2
      · intro l2 hl2
        have := hskip _ l0 (fun hx hy => ha ⟨hx, hy⟩) l2 hl2
        rw [this.1, this.2]
        exact h2 l2 hl2
  intro l hl
  exact (hfinal l hl).2

/-- Witness for C8: a two-member space whose members both carry the code of
the encoded average after the pass. -/
theorem claim_C8_witness :
    (0 : ℕ) ∈ ([0, 1] : List ℕ) ∧
    (custom_set_encode_pass 2 spacesC8 lspacearrC8 false (fun l2 => l2)
        (fun _ => ⟨0, 0, 1⟩) (fun _ => ((3 : ℤ), (4 : ℤ))) (fun _ => true)).1 0 =
      BKE_lnor_space_custom_normal_to_data spaceC2
        (((2 : ℕ) : ℝ)⁻¹ •
          (([0, 1] : List ℕ).foldl (fun a _ => a + ⟨0, 0, 1⟩) (0 : Vec3))) := by
  refine ⟨by norm_num,
    claim_C8_average_broadcast 2 spacesC8 lspacearrC8 false (fun l2 => l2)
      (fun _ => ⟨0, 0, 1⟩) (fun _ => ((3 : ℤ), (4 : ℤ))) (fun _ => true) 0 ?_ ?_ rfl ?_ 0
      (by simp [spacesC8])⟩
  · intro l2 hl2
    fin_cases hl2
    · exact ⟨rfl, by norm_num, rfl⟩
    · exact ⟨rfl, by norm_num, rfl⟩
  · intro j sid2 hj l2 hl2
    have hsid : sid2 = 0 := by
      by_cases h2 : j < 2
      · simp only [lspacearrC8, h2, if_pos] at hj
        exact (Option.some.inj hj).symm
      · simp only [lspacearrC8, h2, if_neg, if_false] at hj
        exact Option.noConfusion hj
    subst hsid
    fin_cases hl2
    · rfl
    · rfl
  · intro h
    exact List.noConfusion h

theorem split_loop_nor_fan_post_walk (loopnors0 : ℕ → Vec3) (clnors0 : ℕ → ℤ × ℤ)
    (useSpace useClnors : Bool) (ml_curr_index : ℕ) (vec_org : Vec3) (res : FanResult) :
    (split_loop_nor_fan_post loopnors0 clnors0 useSpace useClnors ml_curr_index vec_org
      res).walk = res := by
  simp only [split_loop_nor_fan_post]
  split_ifs <;> rfl

/-- C4: every corner visited by a fan task of split_loop_nor_fan_do receives
the same final loop normal (one shared value per fan), whenever the task is
run with a space array (where the vertex-normal fallback applies), or the
accumulated fan normal is nonzero, or the pre-populated loop normals of the
fan's corners agree (which holds in the pipeline, where they were all
pre-populated with the pivot vertex's normal). -/
theorem claim_C4_fan_normal_uniform (m : MeshTopo) (loop_to_poly : ℕ → ℕ)
    (edge_to_loops : ℕ → ℤ × ℤ) (polynors : ℕ → Vec3) (useSpace useClnors : Bool)
    (clnors0 : ℕ → ℤ × ℤ) (loopnors0 : ℕ → Vec3) (ml_curr ml_prev mp fuel : ℕ)
    (r : FanDoResult)
    (hr : split_loop_nor_fan_do m loop_to_poly edge_to_loops polynors useSpace useClnors
      clnors0 loopnors0 ml_curr ml_prev mp fuel = some r)
    (hnd : useSpace = true ∨ r.walk.lnorAcc ≠ 0 ∨
      (∀ c ∈ r.walk.visited, loopnors0 c = loopnors0 ml_curr)) :
    ∃ n, ∀ c ∈ r.walk.visited, r.loopnors c = n := by
  simp only [split_loop_nor_fan_do] at hr
  obtain ⟨res, hres, hpost⟩ := Option.map_eq_some'.mp hr
  subst hpost
  rw [split_loop_nor_fan_post_walk] at hnd ⊢
  unfold split_loop_nor_fan_post
  by_cases hus : useSpace = true
  · simp only [hus, if_true]
    exact ⟨_, fun c hc => foldl_update_of_mem _ _ _ _ hc⟩
  · simp only [if_neg hus]
    by_cases hlen : Vec3.len res.lnorAcc = 0
    · simp only [hlen, if_pos]
      rcases hnd with h | h | h
      · exact absurd h hus
      · exact absurd ((Vec3.dot_self_eq_zero_iff _).mp ((Vec3.len_eq_zero_iff _).mp hlen)) h
      · exact ⟨loopnors0 ml_curr, fun c hc => h c hc⟩
    · simp only [if_neg hlen]
      exact ⟨_, fun c hc => foldl_update_of_mem _ _ _ _ hc⟩

/-- Witness for C4: a one-corner fan task on degenerate all-zero geometry
(sharp previous edge stops the walk immediately; the accumulated normal is
zero and no space array is used, exercising the pre-populated branch). -/
theorem claim_C4_witness :
    split_loop_nor_fan_do emptyMesh (fun _ => 0) (fun _ => ((0 : ℤ), INDEX_INVALID))
      (fun _ => 0) false false (fun _ => (0, 0)) (fun _ => 0) 0 0 0 1 =
      some ⟨fun _ => 0, none, fun _ => (0, 0), ⟨0, [0], [], 0, 0, false, (0, 0), 0⟩⟩ ∧
    (∃ n, ∀ c ∈ (⟨fun _ => 0, none, fun _ => (0, 0),
        (⟨0, [0], [], 0, 0, false, (0, 0), 0⟩ : FanResult)⟩ : FanDoResult).walk.visited,
      (⟨fun _ => 0, none, fun _ => (0, 0),
        (⟨0, [0], [], 0, 0, false, (0, 0), 0⟩ : FanResult)⟩ : FanDoResult).loopnors c = n) := by
  have hr : split_loop_nor_fan_do emptyMesh (fun _ => 0) (fun _ => ((0 : ℤ), INDEX_INVALID))
      (fun _ => 0) false false (fun _ => (0, 0)) (fun _ => 0) 0 0 0 1 =
      some ⟨fun _ => 0, none, fun _ => (0, 0), ⟨0, [0], [], 0, 0, false, (0, 0), 0⟩⟩ := by
    have hlen0 : Vec3.len (0 : Vec3) = 0 := by
      rw [Vec3.len_eq_zero_iff]
      simp [Vec3.dot]
    rw [show (1 : ℕ) = 0 + 1 from rfl]
    simp only [split_loop_nor_fan_do, fanLoop, emptyMesh, edgeOtherVertPos, IS_EDGE_SHARP,
      INDEX_INVALID, INDEX_UNSET]
    norm_num [Vec3.normalize_zero, Vec3.dot]
    simp only [split_loop_nor_fan_post, hlen0, Bool.false_eq_true, if_false, if_pos]
  refine ⟨hr, ?_⟩
  exact claim_C4_fan_normal_uniform emptyMesh (fun _ => 0) (fun _ => ((0 : ℤ), INDEX_INVALID))
    (fun _ => 0) false false (fun _ => (0, 0)) (fun _ => 0) 0 0 0 1 _ hr
    (Or.inr (Or.inr (fun c _ => rfl)))

/-- C7: frame effect of BKE_edges_sharp_from_angle_set. With split_angle at
or above pi the call changes nothing at all; otherwise an edge's descriptor
is either left exactly as it was or has only its persistent sharp flag set,
and the latter happens only for edges touched by two corners whose polygons'
normals fail the angle test (dot product below cos(split_angle)) - the
angle threshold being the cause that decided sharpness. -/
theorem claim_C7_angle_tag_frame (m : MeshTopo) (polynors : ℕ → Vec3) (θ : ℝ)
    (Hltp : ∀ pr ∈ scanPairs m, build_loop_to_poly_map m pr.2 = pr.1) :
    (Real.pi ≤ θ → BKE_edges_sharp_from_angle_set m polynors θ = m.edges) ∧
    (∀ e, BKE_edges_sharp_from_angle_set m polynors θ e = m.edges e ∨
      (BKE_edges_sharp_from_angle_set m polynors θ e =
        ⟨(m.edges e).v1, (m.edges e).v2, true⟩ ∧
       ∃ l0 l1 : ℕ, m.corner_edges l0 = e ∧ m.corner_edges l1 = e ∧
         Vec3.dot (polynors (build_loop_to_poly_map m l0))
           (polynors (build_loop_to_poly_map m l1)) < Real.cos θ)) := by
  constructor
  · intro hpi
    unfold BKE_edges_sharp_from_angle_set
    rw [if_pos hpi]
  intro e
  by_cases hpi : Real.pi ≤ θ
  · left
    unfold BKE_edges_sharp_from_angle_set
    rw [if_pos hpi]
  -- the scan with angle checking and tagging enabled
  set ltp := build_loop_to_poly_map m with hltp
  set W := fun (e2 : ℕ) => ∃ l0 l1 : ℕ, m.corner_edges l0 = e2 ∧ m.corner_edges l1 = e2 ∧
    Vec3.dot (polynors (ltp l0)) (polynors (ltp l1)) < Real.cos θ with hW
  set Inv := fun (st : SharpTagState) =>
    (∀ e2, st.sharp_bits e2 = true → W e2) ∧
    (∀ e2, (st.e2l e2).2 = INDEX_UNSET →
      ∃ l0 : ℕ, (st.e2l e2).1 = (l0 : ℤ) ∧ m.corner_edges l0 = e2) with hInv
  set step := mesh_edges_sharp_tag_step m (fun _ => 0) polynors ltp true (Real.cos θ) true
    false with hstep
  have hstep_pres : ∀ (mp ml : ℕ), ltp ml = mp → ∀ st, Inv st → Inv (step st (mp, ml)) := by
    intro mp ml hmp st hI
    by_cases h0 : st.e2l (m.corner_edges ml) = (0, 0)
    · have hbits : (step st (mp, ml)).sharp_bits = st.sharp_bits := by
        simp only [hstep, mesh_edges_sharp_tag_step]
        rw [if_pos h0]
      have he2l : (step st (mp, ml)).e2l = Function.update st.e2l (m.corner_edges ml)
          ((ml : ℤ), if (m.polys mp).smooth then INDEX_UNSET else INDEX_INVALID) := by
        simp only [hstep, mesh_edges_sharp_tag_step]
        rw [if_pos h0]
      refine ⟨?_, ?_⟩
      · intro e2 hb
        rw [hbits] at hb
        exact hI.1 e2 hb
      · intro e2 hu
        rw [he2l] at hu ⊢
        by_cases he : e2 = m.corner_edges ml
        · subst he
          rw [Function.update_same] at hu ⊢
          exact ⟨ml, rfl, rfl⟩
        · rw [Function.update_noteq he] at hu ⊢
          exact hI.2 e2 hu
    · by_cases h2 : (st.e2l (m.corner_edges ml)).2 = INDEX_UNSET
      · by_cases hc : (m.polys mp).smooth = false ∨
            (m.edges (m.corner_edges ml)).sharp = true ∨
            m.corner_verts ml = m.corner_verts (st.e2l (m.corner_edges ml)).1.toNat ∨
            Vec3.dot (polynors (ltp (st.e2l (m.corner_edges ml)).1.toNat)) (polynors mp) <
              Real.cos θ
        · have he2l : (step st (mp, ml)).e2l = Function.update st.e2l (m.corner_edges ml)
              ((st.e2l (m.corner_edges ml)).1, INDEX_INVALID) := by
            simp only [hstep, mesh_edges_sharp_tag_step, true_and]
            rw [if_neg h0, if_pos h2, if_pos hc]
          have hbits : (step st (mp, ml)).sharp_bits =
              (if Vec3.dot (polynors (ltp (st.e2l (m.corner_edges ml)).1.toNat))
                    (polynors mp) < Real.cos θ then
                Function.update st.sharp_bits (m.corner_edges ml) true
              else st.sharp_bits) := by
            simp only [hstep, mesh_edges_sharp_tag_step, true_and]
            rw [if_neg h0, if_pos h2, if_pos hc]
          refine ⟨?_, ?_⟩
          · intro e2 hb
            rw [hbits] at hb
            by_cases hang :
                Vec3.dot (polynors (ltp (st.e2l (m.corner_edges ml)).1.toNat))
                  (polynors mp) < Real.cos θ
            · rw [if_pos hang] at hb
              by_cases he : e2 = m.corner_edges ml
              · subst he
                obtain ⟨l0, hl0, hl0e⟩ := hI.2 (m.corner_edges ml) h2
                refine ⟨l0, ml, hl0e, rfl, ?_⟩
                have htn : (st.e2l (m.corner_edges ml)).1.toNat = l0 := by
                  rw [hl0]
                  exact Int.toNat_natCast l0
                have hd2 := hang
                rw [htn] at hd2
                rw [← hmp] at hd2
                exact hd2
              · rw [Function.update_noteq he] at hb
                exact hI.1 e2 hb
            · rw [if_neg hang] at hb
              exact hI.1 e2 hb
          · intro e2 hu
            rw [he2l] at hu ⊢
            by_cases he : e2 = m.corner_edges ml
            · subst he
              rw [Function.update_same] at hu
              norm_num [INDEX_UNSET, INDEX_INVALID] at hu
            · rw [Function.update_noteq he] at hu ⊢
              exact hI.2 e2 hu
        · have he2l : (step st (mp, ml)).e2l = Function.update st.e2l (m.corner_edges ml)
              ((st.e2l (m.corner_edges ml)).1, (ml : ℤ)) := by
            simp only [hstep, mesh_edges_sharp_tag_step, true_and]
            rw [if_neg h0, if_pos h2, if_neg hc]
          have hbits : (step st (mp, ml)).sharp_bits = st.sharp_bits := by
            simp only [hstep, mesh_edges_sharp_tag_step, true_and]
            rw [if_neg h0, if_pos h2, if_neg hc]
          refine ⟨?_, ?_⟩
          · intro e2 hb
            rw [hbits] at hb
            exact hI.1 e2 hb
          · intro e2 hu
            rw [he2l] at hu ⊢
            by_cases he : e2 = m.corner_edges ml
            · subst he
              rw [Function.update_same] at hu
              exfalso
              have hml : (0 : ℤ) ≤ (ml : ℤ) := Int.natCast_nonneg ml
              simp only at hu
              rw [hu] at hml
              norm_num [INDEX_UNSET] at hml
            · rw [Function.update_noteq he] at hu ⊢
              exact hI.2 e2 hu
      · by_cases hsh : IS_EDGE_SHARP (st.e2l (m.corner_edges ml))
        · have he2l : (step st (mp, ml)).e2l = st.e2l := by
            simp only [hstep, mesh_edges_sharp_tag_step]
            rw [if_neg h0, if_neg h2, if_neg (not_not_intro hsh)]
          have hbits : (step st (mp, ml)).sharp_bits = st.sharp_bits := by
            simp only [hstep, mesh_edges_sharp_tag_step]
            rw [if_neg h0, if_neg h2, if_neg (not_not_intro hsh)]
          refine ⟨?_, ?_⟩
          · intro e2 hb
            rw [hbits] at hb
            exact hI.1 e2 hb
          · intro e2 hu
            rw [he2l] at hu ⊢
            exact hI.2 e2 hu
        · have he2l : (step st (mp, ml)).e2l = Function.update st.e2l (m.corner_edges ml)
              ((st.e2l (m.corner_edges ml)).1, INDEX_INVALID) := by
            simp only [hstep, mesh_edges_sharp_tag_step]
            rw [if_neg h0, if_neg h2, if_pos hsh]
          have hbits : (step st (mp, ml)).sharp_bits =
              Function.update st.sharp_bits (m.corner_edges ml) false := by
            simp only [hstep, mesh_edges_sharp_tag_step]
            rw [if_neg h0, if_neg h2, if_pos hsh]
            exact rfl
          refine ⟨?_, ?_⟩
          · intro e2 hb
            rw [hbits] at hb
            by_cases he : e2 = m.corner_edges ml
            · subst he
              rw [Function.update_same] at hb
              exact Bool.noConfusion hb
            · rw [Function.update_noteq he] at hb
              exact hI.1 e2 hb
          · intro e2 hu
            rw [he2l] at hu ⊢
            by_cases he : e2 = m.corner_edges ml
            · subst he
              rw [Function.update_same] at hu
              norm_num [INDEX_UNSET, INDEX_INVALID] at hu
            · rw [Function.update_noteq he] at hu ⊢
              exact hI.2 e2 hu
  have hfold : ∀ (l : List (ℕ × ℕ)), (∀ pr ∈ l, ltp pr.2 = pr.1) →
      ∀ st, Inv st → Inv (l.foldl step st) := by
    intro l
    induction l with
    | nil => intro _ st h; exact h
    | cons a t ih =>
      intro hl st h
      simp only [List.foldl_cons]
      exact ih (fun pr hpr => hl pr (List.mem_cons_of_mem a hpr))
        (step st a)
        (by
          obtain ⟨mp, ml⟩ := a
          exact hstep_pres mp ml (hl (mp, ml) (List.mem_cons_self _ _)) st h)
  have hinit : Inv ⟨fun _ => (0, 0), fun _ => false, fun _ => 0⟩ := by
    constructor
    · intro e2 hb
      exact Bool.noConfusion hb
    · intro e2 hu
      norm_num [INDEX_UNSET] at hu
  have hfinal : Inv ((scanPairs m).foldl step
      ⟨fun _ => (0, 0), fun _ => false, fun _ => 0⟩) :=
    hfold (scanPairs m) Hltp _ hinit
  have htag : mesh_edges_sharp_tag m (fun _ => 0) polynors ltp true θ true false (fun _ => 0) =
      (scanPairs m).foldl step ⟨fun _ => (0, 0), fun _ => false, fun _ => 0⟩ := rfl
  unfold BKE_edges_sharp_from_angle_set
  rw [if_neg hpi]
  rw [← hltp, htag]
  by_cases hcond : e < m.numEdges ∧
      ((scanPairs m).foldl step ⟨fun _ => (0, 0), fun _ => false, fun _ => 0⟩).sharp_bits e =
        true
  · right
    rw [if_pos hcond]
    exact ⟨rfl, hfinal.1 e hcond.2⟩
  · left
    rw [if_neg hcond]

/-- Witness for C7 at the empty mesh (whose scan-pair list is empty, so the
loop-to-polygon consistency hypothesis holds vacuously), at split angle pi
(the no-op case) and at split angle 0. -/
theorem claim_C7_witness :
    BKE_edges_sharp_from_angle_set emptyMesh (fun _ => 0) Real.pi = emptyMesh.edges ∧
    (BKE_edges_sharp_from_angle_set emptyMesh (fun _ => 0) 0 0 = emptyMesh.edges 0 ∨
      (BKE_edges_sharp_from_angle_set emptyMesh (fun _ => 0) 0 0 =
        ⟨(emptyMesh.edges 0).v1, (emptyMesh.edges 0).v2, true⟩ ∧
       ∃ l0 l1 : ℕ, emptyMesh.corner_edges l0 = 0 ∧ emptyMesh.corner_edges l1 = 0 ∧
         Vec3.dot (0 : Vec3) (0 : Vec3) < Real.cos 0)) := by
  have HL : ∀ pr ∈ scanPairs emptyMesh, build_loop_to_poly_map emptyMesh pr.2 = pr.1 := by
    intro pr hpr
    simp [scanPairs, emptyMesh] at hpr
  exact ⟨(claim_C7_angle_tag_frame emptyMesh (fun _ => 0) Real.pi HL).1 le_rfl,
    (claim_C7_angle_tag_frame emptyMesh (fun _ => 0) 0 HL).2 0⟩

theorem unit_float_to_short_eq_round (v : ℝ) :
    unit_float_to_short v = round (v * 32767) := by
  rw [round_eq]
  rfl

/-- Spherical form of the decoder: for every code, the decoded vector is the
spherical reconstruction from the decoded polar angle (decodedAlpha) and
azimuthal angle (decodedBeta) in the space's basis. -/
theorem decode_eq_spherical (s : MLoopNorSpace) (c : ℤ × ℤ) :
    BKE_lnor_space_custom_data_to_normal s c =
      Real.cos (decodedAlpha s c) • s.vec_lnor +
      (Real.sin (decodedAlpha s c) * Real.cos (decodedBeta s c)) • s.vec_ref +
      (Real.sin (decodedAlpha s c) * Real.sin (decodedBeta s c)) • s.vec_ortho := by
  simp only [BKE_lnor_space_custom_data_to_normal, decodedAlpha, decodedBeta]
  by_cases hg : c.1 = 0 ∨ s.ref_alpha = 0 ∨ s.ref_beta = 0
  · rw [if_pos hg, if_pos hg, if_pos hg]
    simp
  · rw [if_neg hg, if_neg hg, if_neg hg]
    by_cases hb : unit_short_to_float c.2 = 0
    · rw [if_pos hb, if_pos hb]
      simp
    · rw [if_neg hb, if_neg hb]

/-- First code component produced by the encoder outside its shortcut branch. -/
theorem encode_fst_eq (s : MLoopNorSpace) (v : Vec3)
    (hguard : ¬(v = 0 ∨ compare_v3v3 s.vec_lnor v (1 / 10000))) :
    (BKE_lnor_space_custom_normal_to_data s v).1 =
      (if s.ref_alpha < Real.arccos (Vec3.dot s.vec_lnor v) then
        unit_float_to_short (-(Real.pi * 2 - Real.arccos (Vec3.dot s.vec_lnor v)) /
          (Real.pi * 2 - s.ref_alpha))
      else unit_float_to_short (Real.arccos (Vec3.dot s.vec_lnor v) / s.ref_alpha)) := by
  unfold BKE_lnor_space_custom_normal_to_data
  rw [if_neg hguard]
  rfl

/-- C1 amended: the decoder reconstructs the encoder's polar angle up to half
a fixed-point quantization step of the branch's angular range: within
ref_alpha/65534 when the input's polar angle alpha is inside the fan range
(alpha at most ref_alpha), and within (2pi - ref_alpha)/65534 modulo one full
turn otherwise. (Together with decode_eq_spherical this pins the decoded
vector's polar angle; the original uniform bound 2pi/65536 on the total
angular deviation is refuted by the separate counterexample.) -/
theorem claim_C1_amended_alpha_roundtrip (s : MLoopNorSpace) (v : Vec3)
    (hα0 : 0 < s.ref_alpha) (hβ : s.ref_beta ≠ 0)
    (hguard : ¬(v = 0 ∨ compare_v3v3 s.vec_lnor v (1 / 10000))) :
    |decodedAlpha s (BKE_lnor_space_custom_normal_to_data s v) -
        Real.arccos (Vec3.dot s.vec_lnor v)| ≤ s.ref_alpha / 65534 ∨
    |decodedAlpha s (BKE_lnor_space_custom_normal_to_data s v) + Real.pi * 2 -
        Real.arccos (Vec3.dot s.vec_lnor v)| ≤ (Real.pi * 2 - s.ref_alpha) / 65534 := by
  set α := Real.arccos (Vec3.dot s.vec_lnor v) with hαdef
  have hα_nonneg : 0 ≤ α := Real.arccos_nonneg _
  have hα_le_pi : α ≤ Real.pi := Real.arccos_le_pi _
  have hfst := encode_fst_eq s v hguard
  by_cases hcase : s.ref_alpha < α
  · -- wide branch: alpha beyond ref_alpha, encoded against the 2pi complement
    right
    rw [if_pos hcase] at hfst
    rw [unit_float_to_short_eq_round] at hfst
    set d := Real.pi * 2 - s.ref_alpha with hd
    have hdpos : 0 < d := by
      have := Real.pi_pos
      rw [hd]
      linarith
    set g := (Real.pi * 2 - α) / d with hg
    have hghalf : 1 / 2 ≤ g := by
      rw [hg]
      rw [le_div_iff hdpos]
      have h2 : Real.pi ≤ Real.pi * 2 - α := by linarith
      have h3 : d ≤ Real.pi * 2 := by
        rw [hd]; linarith
      nlinarith [Real.pi_pos]
    have hfst2 : ((BKE_lnor_space_custom_normal_to_data s v).1 : ℝ) = round (-g * 32767) := by
      rw [hfst]
      norm_cast
      congr 1
      rw [hg, hd]
      ring
    have hround := abs_sub_round (-g * 32767)
    have hcast_le : ((BKE_lnor_space_custom_normal_to_data s v).1 : ℝ) ≤ -g * 32767 + 1 / 2 := by
      rw [hfst2]
      have := abs_le.mp hround
      linarith [this.2]
    have hneg : ((BKE_lnor_space_custom_normal_to_data s v).1 : ℝ) < 0 := by
      have : -g * 32767 + 1 / 2 < 0 := by nlinarith
      linarith
    have hneg' : (BKE_lnor_space_custom_normal_to_data s v).1 < 0 := by exact_mod_cast hneg
    have hne0 : (BKE_lnor_space_custom_normal_to_data s v).1 ≠ 0 := ne_of_lt hneg'
    have hdec : decodedAlpha s (BKE_lnor_space_custom_normal_to_data s v) =
        d * (((BKE_lnor_space_custom_normal_to_data s v).1 : ℝ) / 32767) := by
      unfold decodedAlpha
      rw [if_neg (by push_neg; exact ⟨hne0, ne_of_gt hα0, hβ⟩)]
      have hnotpos : ¬ (0 < unit_short_to_float (BKE_lnor_space_custom_normal_to_data s v).1) := by
        unfold unit_short_to_float
        intro hpos
        have : (0 : ℝ) < ((BKE_lnor_space_custom_normal_to_data s v).1 : ℝ) := by
          nlinarith
        linarith
      show (if 0 < unit_short_to_float (BKE_lnor_space_custom_normal_to_data s v).1 then
          s.ref_alpha else Real.pi * 2 - s.ref_alpha) *
        unit_short_to_float (BKE_lnor_space_custom_normal_to_data s v).1 =
        d * (((BKE_lnor_space_custom_normal_to_data s v).1 : ℝ) / 32767)
      rw [if_neg hnotpos]
      unfold unit_short_to_float
      rw [hd]
    have hα_eq : α = Real.pi * 2 - g * d := by
      rw [hg]
      field_simp
    rw [hdec, hα_eq]
    have habs : d * (((BKE_lnor_space_custom_normal_to_data s v).1 : ℝ) / 32767) + Real.pi * 2 -
        (Real.pi * 2 - g * d) =
        (d / 32767) * (((BKE_lnor_space_custom_normal_to_data s v).1 : ℝ) - (-g * 32767)) := by
      field_simp
      ring
    rw [habs, abs_mul, abs_of_pos (by positivity : (0 : ℝ) < d / 32767)]
    have hsub : |((BKE_lnor_space_custom_normal_to_data s v).1 : ℝ) - (-g * 32767)| ≤ 1 / 2 := by
      rw [hfst2, abs_sub_comm]
      exact abs_sub_round (-g * 32767)
    calc d / 32767 * |((BKE_lnor_space_custom_normal_to_data s v).1 : ℝ) - (-g * 32767)| ≤
        d / 32767 * (1 / 2) := by
          apply mul_le_mul_of_nonneg_left hsub
          positivity
      _ = d / 65534 := by ring
  · -- narrow branch: alpha inside the fan range
    left
    rw [if_neg hcase] at hfst
    rw [unit_float_to_short_eq_round] at hfst
    have hα_le : α ≤ s.ref_alpha := le_of_not_lt hcase
    set y := α / s.ref_alpha * 32767 with hy
    have hy_nonneg : 0 ≤ y := by
      rw [hy]
      positivity
    have hfst2 : ((BKE_lnor_space_custom_normal_to_data s v).1 : ℝ) = round y := by
      rw [hfst]
    have hround := abs_sub_round y
    have hc0_nonneg : 0 ≤ (BKE_lnor_space_custom_normal_to_data s v).1 := by
      rw [hfst]
      rw [round_eq]
      apply Int.floor_nonneg.mpr
      linarith
    have hαy : α = s.ref_alpha / 32767 * y := by
      rw [hy]
      field_simp
      ring
    by_cases hz : (BKE_lnor_space_custom_normal_to_data s v).1 = 0
    · have hdec : decodedAlpha s (BKE_lnor_space_custom_normal_to_data s v) = 0 := by
        unfold decodedAlpha
        rw [if_pos (Or.inl hz)]
      have hy_small : y ≤ 1 / 2 := by
        have h0 : ((0 : ℤ) : ℝ) = round y := by
          rw [← hfst2, hz]
        have := abs_le.mp hround
        have h1 : y - (round y : ℝ) ≤ 1 / 2 := this.2
        rw [← h0] at h1
        norm_num at h1
        exact h1
      rw [hdec]
      rw [abs_of_nonpos (by linarith)]
      rw [hαy]
      calc -(0 - s.ref_alpha / 32767 * y) = s.ref_alpha / 32767 * y := by ring
        _ ≤ s.ref_alpha / 32767 * (1 / 2) := by
            apply mul_le_mul_of_nonneg_left hy_small
            positivity
        _ = s.ref_alpha / 65534 := by ring
    · have hc0_pos : 0 < (BKE_lnor_space_custom_normal_to_data s v).1 :=
        lt_of_le_of_ne hc0_nonneg (Ne.symm hz)
      have hdec : decodedAlpha s (BKE_lnor_space_custom_normal_to_data s v) =
          s.ref_alpha * (((BKE_lnor_space_custom_normal_to_data s v).1 : ℝ) / 32767) := by
        unfold decodedAlpha
        rw [if_neg (by push_neg; exact ⟨hz, ne_of_gt hα0, hβ⟩)]
        have hpos : 0 < unit_short_to_float (BKE_lnor_space_custom_normal_to_data s v).1 := by
          unfold unit_short_to_float
          have : (0 : ℝ) < ((BKE_lnor_space_custom_normal_to_data s v).1 : ℝ) := by
            exact_mod_cast hc0_pos
          positivity
        show (if 0 < unit_short_to_float (BKE_lnor_space_custom_normal_to_data s v).1 then
            s.ref_alpha else Real.pi * 2 - s.ref_alpha) *
          unit_short_to_float (BKE_lnor_space_custom_normal_to_data s v).1 =
          s.ref_alpha * (((BKE_lnor_space_custom_normal_to_data s v).1 : ℝ) / 32767)
        rw [if_pos hpos]
        rfl
      rw [hdec, hαy]
      have habs : s.ref_alpha * (((BKE_lnor_space_custom_normal_to_data s v).1 : ℝ) / 32767) -
          s.ref_alpha / 32767 * y =
          (s.ref_alpha / 32767) * (((BKE_lnor_space_custom_normal_to_data s v).1 : ℝ) - y) := by
        ring
      rw [habs, abs_mul, abs_of_pos (by positivity : (0 : ℝ) < s.ref_alpha / 32767)]
      have hsub : |((BKE_lnor_space_custom_normal_to_data s v).1 : ℝ) - y| ≤ 1 / 2 := by
        rw [hfst2, abs_sub_comm]
        exact abs_sub_round y
      calc s.ref_alpha / 32767 * |((BKE_lnor_space_custom_normal_to_data s v).1 : ℝ) - y| ≤
          s.ref_alpha / 32767 * (1 / 2) := by
            apply mul_le_mul_of_nonneg_left hsub
            positivity
        _ = s.ref_alpha / 65534 := by ring

theorem lnor_space_define_eval_C1 :
    BKE_lnor_space_define ⟨0, 0, 1⟩ ⟨1, 0, 0⟩ ⟨1, 0, 0⟩ none =
      ⟨⟨0, 0, 1⟩, ⟨1, 0, 0⟩, ⟨0, 1, 0⟩, Real.pi / 2, Real.pi * 2⟩ := by
  have h00 : Vec3.dot ⟨1, 0, 0⟩ ⟨0, 0, 1⟩ = 0 := by simp [Vec3.dot]
  have hn1 : Vec3.normalize ⟨1, 0, 0⟩ = ⟨1, 0, 0⟩ :=
    Vec3.normalize_unit _ (by simp [Vec3.dot])
  have hcr : Vec3.cross ⟨0, 0, 1⟩ ⟨1, 0, 0⟩ = ⟨0, 1, 0⟩ := by
    apply Vec3.ext <;> simp [Vec3.cross]
  have hn2 : Vec3.normalize ⟨0, 1, 0⟩ = ⟨0, 1, 0⟩ :=
    Vec3.normalize_unit _ (by simp [Vec3.dot])
  have h11 : Vec3.dot ⟨1, 0, 0⟩ ⟨1, 0, 0⟩ = 1 := by simp [Vec3.dot]
  have hsub : (⟨1, 0, 0⟩ : Vec3) - (0 : ℝ) • ⟨0, 0, 1⟩ = ⟨1, 0, 0⟩ := by
    apply Vec3.ext <;> simp
  unfold BKE_lnor_space_define
  rw [if_neg (by rw [h00]; norm_num [LNOR_SPACE_TRIGO_THRESHOLD])]
  simp only [h00, hsub, hn1, hcr, hn2, h11, saacos, Real.arccos_zero,
    LNOR_SPACE_TRIGO_THRESHOLD, MLoopNorSpace.mk.injEq]
  norm_num

theorem encode_eval_C1 :
    BKE_lnor_space_custom_normal_to_data
      ⟨⟨0, 0, 1⟩, ⟨1, 0, 0⟩, ⟨0, 1, 0⟩, Real.pi / 2, Real.pi * 2⟩ ⟨-1, 0, 0⟩ =
      (32767, 16384) := by
  have hguard : ¬((⟨-1, 0, 0⟩ : Vec3) = 0 ∨
      compare_v3v3 ⟨0, 0, 1⟩ ⟨-1, 0, 0⟩ (1 / 10000)) := by
    push_neg
    constructor
    · intro h
      have hx := congrArg Vec3.x h
      norm_num at hx
    · intro h
      have := h.1
      norm_num at this
  have hca : Vec3.dot ⟨0, 0, 1⟩ ⟨-1, 0, 0⟩ = 0 := by simp [Vec3.dot]
  have hvec : (⟨-1, 0, 0⟩ : Vec3) + (-(0 : ℝ)) • ⟨0, 0, 1⟩ = ⟨-1, 0, 0⟩ := by
    apply Vec3.ext <;> simp
  have hnm : Vec3.normalize ⟨-1, 0, 0⟩ = ⟨-1, 0, 0⟩ :=
    Vec3.normalize_unit _ (by simp [Vec3.dot])
  have hcb : Vec3.dot ⟨1, 0, 0⟩ ⟨-1, 0, 0⟩ = -1 := by simp [Vec3.dot]
  have hob : Vec3.dot ⟨0, 1, 0⟩ ⟨-1, 0, 0⟩ = 0 := by simp [Vec3.dot]
  have hpi2 : Real.pi / (Real.pi * 2) = 1 / 2 := by
    rw [eq_div_iff (by norm_num : (2 : ℝ) ≠ 0)]
    field_simp
  unfold BKE_lnor_space_custom_normal_to_data
  rw [if_neg hguard]
  simp only [hca, hvec, hnm, hcb, hob, saacos, Real.arccos_zero, Real.arccos_neg_one,
    LNOR_SPACE_TRIGO_THRESHOLD]
  rw [if_neg (lt_irrefl (Real.pi / 2))]
  rw [if_pos (by norm_num), if_neg (by norm_num : ¬((0:ℝ) < 0)),
    if_neg (by nlinarith [Real.pi_pos] : ¬(Real.pi * 2 < Real.pi))]
  rw [div_self (by positivity : Real.pi / 2 ≠ 0), hpi2]
  unfold unit_float_to_short
  norm_num

theorem decode_eval_C1 :
    BKE_lnor_space_custom_data_to_normal
      ⟨⟨0, 0, 1⟩, ⟨1, 0, 0⟩, ⟨0, 1, 0⟩, Real.pi / 2, Real.pi * 2⟩ (32767, 16384) =
      ⟨Real.cos (Real.pi * 2 * (16384 / 32767)), Real.sin (Real.pi * 2 * (16384 / 32767)),
        0⟩ := by
  have hg : ¬((32767 : ℤ) = 0 ∨ (Real.pi / 2) = 0 ∨ (Real.pi * 2) = 0) := by
    push_neg
    refine ⟨by norm_num, by positivity, by positivity⟩
  unfold BKE_lnor_space_custom_data_to_normal
  rw [if_neg hg]
  simp only [unit_short_to_float]
  rw [if_pos (by norm_num : (0 : ℝ) < ((32767 : ℤ) : ℝ) / 32767)]
  rw [if_neg (by norm_num : ¬(((16384 : ℤ) : ℝ) / 32767 = 0))]
  rw [if_pos (by norm_num : (0 : ℝ) < ((16384 : ℤ) : ℝ) / 32767)]
  have h1 : Real.pi / 2 * (((32767 : ℤ) : ℝ) / 32767) = Real.pi / 2 := by norm_num
  have h2 : Real.pi * 2 * (((16384 : ℤ) : ℝ) / 32767) = Real.pi * 2 * (16384 / 32767) := by
    norm_num
  rw [h1, h2, Real.cos_pi_div_two, Real.sin_pi_div_two]
  apply Vec3.ext <;> simp

/-- C1 counterexample: for the loop-normal space successfully constructed by
BKE_lnor_space_define from lnor = (0,0,1) and reference vectors (1,0,0)
(ref_alpha = pi/2, ref_beta = 2pi, both nonzero), the unit vector (-1,0,0) -
which lies exactly at the fan's mean polar angle ref_alpha - decodes after
encoding to a vector at angular distance pi/32767 = 2pi/65534 from the
original, which exceeds the claimed bound 2pi/65536. -/
theorem claim_C1_counterexample :
    (BKE_lnor_space_define ⟨0, 0, 1⟩ ⟨1, 0, 0⟩ ⟨1, 0, 0⟩ none).ref_alpha ≠ 0 ∧
    (BKE_lnor_space_define ⟨0, 0, 1⟩ ⟨1, 0, 0⟩ ⟨1, 0, 0⟩ none).ref_beta ≠ 0 ∧
    Vec3.dot ⟨-1, 0, 0⟩ ⟨-1, 0, 0⟩ = 1 ∧
    Real.arccos (Vec3.dot (BKE_lnor_space_define ⟨0, 0, 1⟩ ⟨1, 0, 0⟩ ⟨1, 0, 0⟩ none).vec_lnor
        ⟨-1, 0, 0⟩) =
      (BKE_lnor_space_define ⟨0, 0, 1⟩ ⟨1, 0, 0⟩ ⟨1, 0, 0⟩ none).ref_alpha ∧
    Real.arccos (Vec3.dot ⟨-1, 0, 0⟩
        (BKE_lnor_space_custom_data_to_normal
          (BKE_lnor_space_define ⟨0, 0, 1⟩ ⟨1, 0, 0⟩ ⟨1, 0, 0⟩ none)
          (BKE_lnor_space_custom_normal_to_data
            (BKE_lnor_space_define ⟨0, 0, 1⟩ ⟨1, 0, 0⟩ ⟨1, 0, 0⟩ none) ⟨-1, 0, 0⟩))) =
      Real.pi / 32767 ∧
    Real.pi * 2 / 65536 < Real.pi / 32767 := by
  rw [lnor_space_define_eval_C1]
  refine ⟨by positivity, by positivity, by simp [Vec3.dot], ?_, ?_, ?_⟩
  · show Real.arccos (Vec3.dot ⟨0, 0, 1⟩ ⟨-1, 0, 0⟩) = Real.pi / 2
    rw [show Vec3.dot ⟨0, 0, 1⟩ ⟨-1, 0, 0⟩ = 0 from by simp [Vec3.dot]]
    exact Real.arccos_zero
  · rw [encode_eval_C1, decode_eval_C1]
    have hdot : Vec3.dot ⟨-1, 0, 0⟩
        ⟨Real.cos (Real.pi * 2 * (16384 / 32767)), Real.sin (Real.pi * 2 * (16384 / 32767)),
          0⟩ = -Real.cos (Real.pi * 2 * (16384 / 32767)) := by
      simp [Vec3.dot]
    rw [hdot]
    have hbeta : Real.pi * 2 * (16384 / 32767) = Real.pi + Real.pi / 32767 := by
      field_simp
      ring
    rw [hbeta, Real.cos_add]
    simp only [Real.cos_pi, Real.sin_pi]
    have hsimpl : -(-1 * Real.cos (Real.pi / 32767) - 0 * Real.sin (Real.pi / 32767)) =
        Real.cos (Real.pi / 32767) := by ring
    rw [hsimpl]
    exact Real.arccos_cos (by positivity)
      (by
        have h1 : Real.pi / 32767 ≤ Real.pi := by
          have := Real.pi_pos
          rw [div_le_iff (by norm_num : (0:ℝ) < 32767)]
          nlinarith
        exact h1)
  · have := Real.pi_pos
    rw [div_lt_div_iff (by norm_num : (0:ℝ) < 65536) (by norm_num : (0:ℝ) < 32767)]
    nlinarith

theorem claim_C1_witness :
    (0 : ℝ) < Real.pi / 2 ∧ Real.pi ≠ 0 ∧
    ¬((⟨1, 0, 0⟩ : Vec3) = 0 ∨ compare_v3v3 ⟨0, 0, 1⟩ ⟨1, 0, 0⟩ (1 / 10000)) ∧
    (|decodedAlpha ⟨⟨0, 0, 1⟩, ⟨1, 0, 0⟩, ⟨0, 1, 0⟩, Real.pi / 2, Real.pi⟩
        (BKE_lnor_space_custom_normal_to_data
          ⟨⟨0, 0, 1⟩, ⟨1, 0, 0⟩, ⟨0, 1, 0⟩, Real.pi / 2, Real.pi⟩ ⟨1, 0, 0⟩) -
        Real.arccos (Vec3.dot ⟨0, 0, 1⟩ ⟨1, 0, 0⟩)| ≤ (Real.pi / 2) / 65534 ∨
     |decodedAlpha ⟨⟨0, 0, 1⟩, ⟨1, 0, 0⟩, ⟨0, 1, 0⟩, Real.pi / 2, Real.pi⟩
        (BKE_lnor_space_custom_normal_to_data
          ⟨⟨0, 0, 1⟩, ⟨1, 0, 0⟩, ⟨0, 1, 0⟩, Real.pi / 2, Real.pi⟩ ⟨1, 0, 0⟩) +
        Real.pi * 2 - Real.arccos (Vec3.dot ⟨0, 0, 1⟩ ⟨1, 0, 0⟩)| ≤
        (Real.pi * 2 - Real.pi / 2) / 65534) := by
  have hguard : ¬((⟨1, 0, 0⟩ : Vec3) = 0 ∨
      compare_v3v3 ⟨0, 0, 1⟩ ⟨1, 0, 0⟩ (1 / 10000)) := by
    push_neg
    constructor
    · intro h
      have hx := congrArg Vec3.x h
      norm_num at hx
    · intro h
      have := h.1
      norm_num at this
  exact ⟨by positivity, Real.pi_ne_zero, hguard,
    claim_C1_amended_alpha_roundtrip
      ⟨⟨0, 0, 1⟩, ⟨1, 0, 0⟩, ⟨0, 1, 0⟩, Real.pi / 2, Real.pi⟩ ⟨1, 0, 0⟩
      (by positivity) Real.pi_ne_zero hguard⟩

end


